import Mathlib

/-!
Verification of the PropelAuth CLI source-file-mutation engine and its
companion reconciliation helpers, as a shallow embedding in Lean 4.

The embedding follows `src/helpers/framework/nextJsUtils.ts`,
`src/helpers/fileUtils.ts` and `src/helpers/envUtils.ts`.  Pure string
manipulation is embedded over `List Char`; the syntax-tree manipulation done
through the external ts-morph library is embedded over an explicit tree type
(`Node`/`Forest` below) covering exactly the node kinds the source code
inspects: import declarations, function declarations, return statements, JSX
elements, JSX self-closing elements, JSX expressions, identifiers and raw
text.  Attribute text is carried verbatim inside the element, matching the
fact that the source never descends into attributes when it searches for
insertion targets.
-/

namespace PropelAuthCLI

/-! ## TestEnv and the URL fragment model

`TestEnv` is the tagged union from `src/types/api.ts`.  The port is an `Int`
because the TypeScript side stores a JS number produced by `parseInt`.
-/

inductive TestEnv where
  | Localhost (port : Int)
  | SchemeAndDomain (scheme_and_domain : String)
deriving DecidableEq

/-- Value of a list of decimal digit characters, most significant first. -/
def digitsVal (ds : List Char) : Nat :=
  ds.foldl (fun a c => 10 * a + (c.toNat - 48)) 0

/-- Modelled from the spec: JS `parseInt(s, 10)` (the Number the external
runtime produces): skip leading whitespace, read an optional sign and the
longest leading run of decimal digits; `none` models `NaN`. -/
def parseIntJs (s : String) : Option Int :=
  let cs := s.data.dropWhile (fun c => c = ' ' ∨ c = '\t' ∨ c = '\n' ∨ c = '\r')
  match cs with
  | '-' :: rest =>
    let ds := rest.takeWhile Char.isDigit
    if ds.isEmpty then none else some (-(digitsVal ds : Int))
  | '+' :: rest =>
    let ds := rest.takeWhile Char.isDigit
    if ds.isEmpty then none else some (digitsVal ds : Int)
  | rest =>
    let ds := rest.takeWhile Char.isDigit
    if ds.isEmpty then none else some (digitsVal ds : Int)

/-- Parsed-URL record: the observations `urlToTestEnv` makes of the WHATWG
`URL` object.  `port = none` models a URL whose serialized port is empty
(either no port was given or the given port equals the scheme default, which
the WHATWG parser normalizes away; the `.port` getter then returns `""`). -/
structure UrlRec where
  scheme : String
  hostname : String
  port : Option Nat
deriving DecidableEq

/-- Characters allowed after the first letter of a URL scheme. -/
def schemeChar (c : Char) : Bool :=
  c.isAlpha || c.isDigit || c == '+' || c == '-' || c == '.'

/-- Characters we accept in a host. -/
def hostChar (c : Char) : Bool :=
  c.isAlpha || c.isDigit || c == '.' || c == '-' || c == '_'

/-- Default port of the WHATWG special schemes; the parser drops a port equal
to it, and the `.port` getter then renders `""`. -/
def defaultPort : String → Option Nat
  | "http" => some 80
  | "https" => some 443
  | "ws" => some 80
  | "wss" => some 443
  | "ftp" => some 21
  | _ => none

/-- The WHATWG special schemes. -/
def isSpecialScheme (s : String) : Bool :=
  s == "http" || s == "https" || s == "ws" || s == "wss" || s == "ftp" || s == "file"

/-- The host-and-port slice of an authority: everything after the last `@`
(the userinfo delimiter), or the whole authority when no `@` occurs. -/
def hostPort (cs : List Char) : List Char :=
  (cs.reverse.takeWhile (fun c => c != '@')).reverse

/-- Parse an authority `[userinfo@]host[:port]` the way the WHATWG host and
port states do on this development's character fragment: a userinfo before an
empty host is rejected; an empty host is rejected for a special scheme and
whenever a port follows; the port must be decimal and at most 65535, and a
port equal to the scheme's default is dropped.  A special scheme's host is
lowercased; an opaque (non-special) host keeps its case. -/
def parseAuthority (scheme : String) (special : Bool) (auth : List Char) : Option UrlRec :=
  let hp := hostPort auth
  if auth.contains '@' && hp.isEmpty then none
  else
    let host := hp.takeWhile (fun c => c != ':')
    if !host.all hostChar then none
    else
      let hostname : String := if special then ⟨host.map Char.toLower⟩ else ⟨host⟩
      match hp.dropWhile (fun c => c != ':') with
      | [] => if special && host.isEmpty then none else some ⟨scheme, hostname, none⟩
      | _ :: ds =>
        if host.isEmpty then none
        else if ds.isEmpty then some ⟨scheme, hostname, none⟩
        else if ds.all Char.isDigit then
          let p := digitsVal ds
          if p > 65535 then none
          else if defaultPort scheme == some p then some ⟨scheme, hostname, none⟩
          else some ⟨scheme, hostname, some p⟩
        else none

/-- Modelled from the spec: the external WHATWG `new URL(...)` constructor on
the fragment of inputs this tool meets.  A scheme followed by `:` is read;
for a special scheme any run of slashes (including none) introduces the
authority, so `ftp://localhost:3000` and even `http:localhost:3000` carry
host `localhost`; `file` consumes an authority that can hold no userinfo or
port and whose `localhost` is replaced by the empty host; a non-special
scheme consumes an authority exactly when `//` follows the colon
(`foo://localhost:3000` has hostname `localhost`) and otherwise holds an
opaque path and an empty hostname.  Hosts are restricted to alphanumeric,
`.`, `-`, `_` characters (no percent-encoding, IDN or IPv6 in the fragment);
`none` models the constructor throwing. -/
def parseURL (url : String) : Option UrlRec :=
  match url.data with
  | [] => none
  | c :: rest =>
    if c.isAlpha then
      match rest.dropWhile schemeChar with
      | ':' :: rest2 =>
        let scheme : String := ⟨(c :: rest.takeWhile schemeChar).map Char.toLower⟩
        if scheme == "file" then
          match rest2 with
          | '/' :: '/' :: rest3 =>
            let hostRaw := rest3.takeWhile (fun c => !(c == '/' || c == '?' || c == '#'))
            if !hostRaw.all hostChar then none
            else
              let hostname : String := ⟨hostRaw.map Char.toLower⟩
              some ⟨scheme, if hostname == "localhost" then "" else hostname, none⟩
          | _ => some ⟨scheme, "", none⟩
        else if isSpecialScheme scheme then
          parseAuthority scheme true
            ((rest2.dropWhile (· == '/')).takeWhile (fun c => !(c == '/' || c == '?' || c == '#')))
        else
          match rest2 with
          | '/' :: '/' :: rest3 =>
            parseAuthority scheme false
              (rest3.takeWhile (fun c => !(c == '/' || c == '?' || c == '#')))
          | _ => some ⟨scheme, "", none⟩
      | _ => none
    else none

/-- Embeds `testEnvToUrl` (nextJsUtils.ts lines 243-250). -/
def testEnvToUrl : TestEnv → String
  | .Localhost p => "http://localhost:" ++ toString p
  | .SchemeAndDomain v => v

/-- Embeds `urlToTestEnv` (nextJsUtils.ts lines 255-288).  In the localhost
branch the source computes `parseInt(parsedUrl.port || '3000', 10)`; since the
`.port` getter renders the stored numeric port in decimal (or `""` when
absent), that expression equals the stored port, defaulting to 3000. -/
def urlToTestEnv (url : String) : TestEnv :=
  match parseURL url with
  | some u =>
    if u.hostname == "localhost" then
      .Localhost (match u.port with | some p => (p : Int) | none => 3000)
    else .SchemeAndDomain url
  | none =>
    match parseIntJs url with
    | some p => .Localhost p
    | none => .Localhost 3000

/-! ## Decimal rendering round-trip

Facts about core's `Nat.toDigits`, needed because `testEnvToUrl` renders the
port with string interpolation (decimal) and `urlToTestEnv` parses it back.
-/

theorem toDigitsCore_append (b : Nat) :
    ∀ (fuel n : Nat) (ds : List Char),
      Nat.toDigitsCore b fuel n ds = Nat.toDigitsCore b fuel n [] ++ ds := by
  intro fuel
  induction fuel with
  | zero => intro n ds; simp [Nat.toDigitsCore]
  | succ f ih =>
    intro n ds
    simp only [Nat.toDigitsCore]
    by_cases h : n / b = 0
    · simp [h]
    · simp only [if_neg h]
      rw [ih (n / b) (Nat.digitChar (n % b) :: ds), ih (n / b) [Nat.digitChar (n % b)]]
      simp

theorem toDigitsCore_fuel (b : Nat) (hb : 2 ≤ b) :
    ∀ (n f₁ f₂ : Nat), n < f₁ → n < f₂ →
      Nat.toDigitsCore b f₁ n [] = Nat.toDigitsCore b f₂ n [] := by
  intro n
  induction n using Nat.strong_induction_on with
  | _ n ih =>
    intro f₁ f₂ h₁ h₂
    match f₁, f₂ with
    | f₁' + 1, f₂' + 1 =>
      simp only [Nat.toDigitsCore]
      by_cases h : n / b = 0
      · simp [h]
      · simp only [if_neg h]
        have hn : 0 < n := by
          rcases Nat.eq_zero_or_pos n with h0 | h0
          · exact absurd (by simp [h0] : n / b = 0) h
          · exact h0
        have hdiv : n / b < n := Nat.div_lt_self hn (by omega)
        rw [toDigitsCore_append, toDigitsCore_append b f₂']
        rw [ih (n / b) hdiv f₁' f₂' (by omega) (by omega)]

theorem toDigits_lt10 {n : Nat} (h : n < 10) : Nat.toDigits 10 n = [Nat.digitChar n] := by
  simp only [Nat.toDigits, Nat.toDigitsCore]
  have h0 : n / 10 = 0 := Nat.div_eq_of_lt h
  simp [h0, Nat.mod_eq_of_lt h]

theorem toDigits_ge10 {n : Nat} (h : 10 ≤ n) :
    Nat.toDigits 10 n = Nat.toDigits 10 (n / 10) ++ [Nat.digitChar (n % 10)] := by
  simp only [Nat.toDigits, Nat.toDigitsCore]
  have h0 : ¬ n / 10 = 0 := by
    have h1 : 1 ≤ n / 10 := (Nat.one_le_div_iff (by norm_num)).mpr h
    omega
  simp only [if_neg h0]
  rw [toDigitsCore_append]
  congr 1
  exact toDigitsCore_fuel 10 (by norm_num) (n / 10) n (n / 10 + 1)
    (Nat.div_lt_self (by omega) (by omega)) (Nat.lt_succ_self _)

theorem digitChar_isDigit {m : Nat} (h : m < 10) : (Nat.digitChar m).isDigit = true := by
  interval_cases m <;> decide

theorem digitChar_val {m : Nat} (h : m < 10) : (Nat.digitChar m).toNat - 48 = m := by
  interval_cases m <;> decide

theorem toDigits_all_digit (n : Nat) : ∀ c ∈ Nat.toDigits 10 n, c.isDigit = true := by
  induction n using Nat.strong_induction_on with
  | _ n ih =>
    by_cases h : n < 10
    · rw [toDigits_lt10 h]
      intro c hc
      rw [List.mem_singleton] at hc
      subst hc
      exact digitChar_isDigit h
    · rw [toDigits_ge10 (by omega)]
      intro c hc
      rcases List.mem_append.mp hc with h1 | h1
      · exact ih (n / 10) (Nat.div_lt_self (by omega) (by omega)) c h1
      · rw [List.mem_singleton] at h1
        subst h1
        exact digitChar_isDigit (Nat.mod_lt _ (by omega))

theorem digitsVal_snoc (xs : List Char) (c : Char) :
    digitsVal (xs ++ [c]) = 10 * digitsVal xs + (c.toNat - 48) := by
  simp [digitsVal, List.foldl_append]

theorem digitsVal_toDigits (n : Nat) : digitsVal (Nat.toDigits 10 n) = n := by
  induction n using Nat.strong_induction_on with
  | _ n ih =>
    by_cases h : n < 10
    · rw [toDigits_lt10 h]
      have : digitsVal [Nat.digitChar n] = (Nat.digitChar n).toNat - 48 := by
        simp [digitsVal]
      rw [this, digitChar_val h]
    · rw [toDigits_ge10 (by omega), digitsVal_snoc,
        ih (n / 10) (Nat.div_lt_self (by omega) (by omega)),
        digitChar_val (Nat.mod_lt _ (by omega))]
      omega

theorem toDigits_ne_nil (n : Nat) : Nat.toDigits 10 n ≠ [] := by
  by_cases h : n < 10
  · rw [toDigits_lt10 h]; simp
  · rw [toDigits_ge10 (by omega)]; simp

theorem takeWhile_append_of_all {p : Char → Bool} :
    ∀ (l₁ l₂ : List Char), (∀ c ∈ l₁, p c = true) →
      (l₁ ++ l₂).takeWhile p = l₁ ++ l₂.takeWhile p := by
  intro l₁
  induction l₁ with
  | nil => intro l₂ _; simp
  | cons a l ih =>
    intro l₂ h
    have ha : p a = true := h a (by simp)
    simp only [List.cons_append, List.takeWhile_cons, ha, if_true]
    rw [ih l₂ (fun c hc => h c (by simp [hc]))]

theorem dropWhile_append_of_all {p : Char → Bool} :
    ∀ (l₁ l₂ : List Char), (∀ c ∈ l₁, p c = true) →
      (l₁ ++ l₂).dropWhile p = l₂.dropWhile p := by
  intro l₁
  induction l₁ with
  | nil => intro l₂ _; simp
  | cons a l ih =>
    intro l₂ h
    have ha : p a = true := h a (by simp)
    simp only [List.cons_append, List.dropWhile_cons, ha, if_true]
    exact ih l₂ (fun c hc => h c (by simp [hc]))

theorem digit_not_sep {c : Char} (h : c.isDigit = true) :
    (!(c == '/' || c == '?' || c == '#')) = true := by
  have h1 : c ≠ '/' := fun e => absurd h (by subst e; decide)
  have h2 : c ≠ '?' := fun e => absurd h (by subst e; decide)
  have h3 : c ≠ '#' := fun e => absurd h (by subst e; decide)
  simp [h1, h2, h3]

theorem digit_not_at {c : Char} (h : c.isDigit = true) : (c == '@') = false := by
  have h1 : c ≠ '@' := fun e => absurd h (by subst e; decide)
  simp [h1]

theorem hostPort_no_at {cs : List Char} (h : ∀ c ∈ cs, (c == '@') = false) :
    hostPort cs = cs := by
  have hall : ∀ c ∈ cs.reverse, (fun c => c != '@') c = true := by
    intro c hc
    have hx := h c (List.mem_reverse.mp hc)
    simp only [bne, hx, Bool.not_false]
  unfold hostPort
  rw [List.takeWhile_eq_self_iff.mpr hall, List.reverse_reverse]

/-- Behaviour of the URL model on `http://localhost:<digits>` for an in-range,
non-default port. -/
theorem parseURL_localhost_digits (ds : List Char) (hne : ds ≠ [])
    (hdig : ∀ c ∈ ds, c.isDigit = true)
    (h65 : digitsVal ds ≤ 65535) (h80 : digitsVal ds ≠ 80) :
    parseURL ("http://localhost:" ++ (⟨ds⟩ : String)) =
      some ⟨"http", "localhost", some (digitsVal ds)⟩ := by
  have hdata : ("http://localhost:" ++ (⟨ds⟩ : String)).data =
      'h' :: 't' :: 't' :: 'p' :: ':' :: '/' :: '/' ::
      'l' :: 'o' :: 'c' :: 'a' :: 'l' :: 'h' :: 'o' :: 's' :: 't' :: ':' :: ds := rfl
  simp only [parseURL, hdata]
  have htw : List.takeWhile schemeChar
      ('t' :: 't' :: 'p' :: ':' :: '/' :: '/' ::
        'l' :: 'o' :: 'c' :: 'a' :: 'l' :: 'h' :: 'o' :: 's' :: 't' :: ':' :: ds) =
      ['t', 't', 'p'] := by
    simp +decide [List.takeWhile_cons]
  have hdw : List.dropWhile schemeChar
      ('t' :: 't' :: 'p' :: ':' :: '/' :: '/' ::
        'l' :: 'o' :: 'c' :: 'a' :: 'l' :: 'h' :: 'o' :: 's' :: 't' :: ':' :: ds) =
      ':' :: '/' :: '/' :: 'l' :: 'o' :: 'c' :: 'a' :: 'l' :: 'h' :: 'o' :: 's' :: 't' :: ':' :: ds := by
    simp +decide [List.dropWhile_cons]
  simp only [htw, hdw]
  have hsep : ∀ c ∈ ('l' :: 'o' :: 'c' :: 'a' :: 'l' :: 'h' :: 'o' :: 's' :: 't' :: ':' :: ds),
      (fun c => !(c == '/' || c == '?' || c == '#')) c = true := by
    intro c hc
    simp only [List.mem_cons] at hc
    rcases hc with h | h | h | h | h | h | h | h | h | h | h
    all_goals first
      | (subst h; decide)
      | (exact digit_not_sep (hdig c h))
  have hauth : List.takeWhile (fun c => !(c == '/' || c == '?' || c == '#'))
      ('l' :: 'o' :: 'c' :: 'a' :: 'l' :: 'h' :: 'o' :: 's' :: 't' :: ':' :: ds) =
      'l' :: 'o' :: 'c' :: 'a' :: 'l' :: 'h' :: 'o' :: 's' :: 't' :: ':' :: ds :=
    List.takeWhile_eq_self_iff.mpr hsep
  have hhost : List.takeWhile (fun c => c != ':')
      ('l' :: 'o' :: 'c' :: 'a' :: 'l' :: 'h' :: 'o' :: 's' :: 't' :: ':' :: ds) =
      ['l', 'o', 'c', 'a', 'l', 'h', 'o', 's', 't'] := by
    simp +decide [List.takeWhile_cons]
  have hhostd : List.dropWhile (fun c => c != ':')
      ('l' :: 'o' :: 'c' :: 'a' :: 'l' :: 'h' :: 'o' :: 's' :: 't' :: ':' :: ds) =
      ':' :: ds := by
    simp +decide [List.dropWhile_cons]
  have hatmem : '@' ∉ ('l' :: 'o' :: 'c' :: 'a' :: 'l' :: 'h' :: 'o' :: 's' :: 't' :: ':' :: ds) := by
    intro hm
    simp only [List.mem_cons] at hm
    rcases hm with h | h | h | h | h | h | h | h | h | h | h
    all_goals first
      | (exact absurd h (by decide))
      | (exact absurd (hdig _ h) (by decide))
  have hat : List.contains ('l' :: 'o' :: 'c' :: 'a' :: 'l' :: 'h' :: 'o' :: 's' :: 't' :: ':' :: ds) '@'
      = false := by
    simp only [List.contains, List.elem_eq_mem, decide_eq_false_iff_not]
    exact hatmem
  have hrev : ∀ c ∈ ('l' :: 'o' :: 'c' :: 'a' :: 'l' :: 'h' :: 'o' :: 's' :: 't' :: ':' :: ds),
      (c == '@') = false := by
    intro c hc
    simp only [List.mem_cons] at hc
    rcases hc with h | h | h | h | h | h | h | h | h | h | h
    all_goals first
      | (subst h; decide)
      | (exact digit_not_at (hdig c h))
  have hhp : hostPort ('l' :: 'o' :: 'c' :: 'a' :: 'l' :: 'h' :: 'o' :: 's' :: 't' :: ':' :: ds) =
      ('l' :: 'o' :: 'c' :: 'a' :: 'l' :: 'h' :: 'o' :: 's' :: 't' :: ':' :: ds) :=
    hostPort_no_at hrev
  have hdse : ds.isEmpty = false := by
    cases ds with
    | nil => exact absurd rfl hne
    | cons a l => rfl
  have hall : ds.all Char.isDigit = true := List.all_eq_true.mpr hdig
  have h80d : (defaultPort "http" == some (digitsVal ds)) = false := by
    rw [beq_eq_false_iff_ne]
    intro hcon
    have hcon' : some 80 = some (digitsVal ds) := hcon
    exact h80 (Option.some.inj hcon').symm
  have hdw2 : List.dropWhile (fun x => x == '/')
      ('/' :: '/' :: 'l' :: 'o' :: 'c' :: 'a' :: 'l' :: 'h' :: 'o' :: 's' :: 't' :: ':' :: ds) =
      'l' :: 'o' :: 'c' :: 'a' :: 'l' :: 'h' :: 'o' :: 's' :: 't' :: ':' :: ds := by
    simp +decide [List.dropWhile_cons]
  have hsch : (⟨List.map Char.toLower ['h', 't', 't', 'p']⟩ : String) = "http" := by decide
  simp only [hsch]
  simp only [hdw2, hauth]
  simp only [parseAuthority, hhp, hat, hhost, hhostd, hdse, hall]
  simp +decide [h80d, show ¬ digitsVal ds > 65535 by omega]

/-- C3 counterexample: the round-trip fails at `Localhost 80`, an integer
port.  `testEnvToUrl` renders `http://localhost:80`; the URL parser
normalizes the default http port away, so its `.port` is empty and
`urlToTestEnv` falls back to 3000. -/
theorem c3_testenv_roundtrip_counterexample :
    urlToTestEnv (testEnvToUrl (TestEnv.Localhost 80)) = TestEnv.Localhost 3000 ∧
    TestEnv.Localhost (3000 : Int) ≠ TestEnv.Localhost 80 := by
  constructor
  · decide
  · decide

/-- C3 amended: the round-trip `urlToTestEnv (testEnvToUrl x) = x` holds for
`Localhost` ports that are integers in `[0, 65535]` other than 80 (the http
default port, which URL parsing normalizes away), and for every
`SchemeAndDomain` value whose stored string is a valid URL with a
non-localhost hostname. -/
theorem c3_testenv_roundtrip_amended :
    (∀ m : Nat, m ≤ 65535 → m ≠ 80 →
      urlToTestEnv (testEnvToUrl (TestEnv.Localhost (m : Int))) = TestEnv.Localhost (m : Int)) ∧
    (∀ (v : String) (u : UrlRec), parseURL v = some u → u.hostname ≠ "localhost" →
      urlToTestEnv (testEnvToUrl (TestEnv.SchemeAndDomain v)) = TestEnv.SchemeAndDomain v) := by
  constructor
  · intro m h65 h80
    have h1 : testEnvToUrl (TestEnv.Localhost (m : Int)) =
        "http://localhost:" ++ (⟨Nat.toDigits 10 m⟩ : String) := rfl
    have hp := parseURL_localhost_digits (Nat.toDigits 10 m) (toDigits_ne_nil m)
      (toDigits_all_digit m)
      (by rw [digitsVal_toDigits]; exact h65)
      (by rw [digitsVal_toDigits]; exact h80)
    rw [digitsVal_toDigits] at hp
    rw [h1]
    simp only [urlToTestEnv, hp]
    simp
  · intro v u hp hh
    have h1 : testEnvToUrl (TestEnv.SchemeAndDomain v) = v := rfl
    have hb : (u.hostname == "localhost") = false := by simp [hh]
    rw [h1]
    simp only [urlToTestEnv, hp, hb]
    simp

/-- Witness for the amended C3 at concrete inputs, including a non-special
scheme whose authority the URL parser still reads. -/
theorem c3_testenv_roundtrip_amended_witness :
    urlToTestEnv (testEnvToUrl (TestEnv.Localhost ((4000 : Nat) : Int))) =
      TestEnv.Localhost ((4000 : Nat) : Int) ∧
    urlToTestEnv (testEnvToUrl (TestEnv.SchemeAndDomain "https://example.com")) =
      TestEnv.SchemeAndDomain "https://example.com" ∧
    urlToTestEnv (testEnvToUrl (TestEnv.SchemeAndDomain "foo://bar")) =
      TestEnv.SchemeAndDomain "foo://bar" :=
  ⟨c3_testenv_roundtrip_amended.1 4000 (by decide) (by decide),
   c3_testenv_roundtrip_amended.2 "https://example.com" ⟨"https", "example.com", none⟩
     (by decide) (by decide),
   c3_testenv_roundtrip_amended.2 "foo://bar" ⟨"foo", "bar", none⟩
     (by decide) (by decide)⟩

/-- C6 counterexample: `"42abc"` is not a valid URL and not a bare integer
string, so the claim requires `Localhost 3000`; the code's `parseInt` prefix
semantics yield `Localhost 42` instead. -/
theorem c6_url_case_analysis_counterexample :
    urlToTestEnv "42abc" = TestEnv.Localhost 42 ∧
    TestEnv.Localhost (42 : Int) ≠ TestEnv.Localhost 3000 ∧
    parseURL "42abc" = none ∧
    ("42abc").data.all Char.isDigit = false := by
  refine ⟨by decide, by decide, by decide, by decide⟩

/-- C6 amended: the case analysis of `urlToTestEnv`, with the fallback clause
corrected: when the input is not a valid URL, the result is `Localhost n`
whenever JS `parseInt` extracts a leading integer `n` (not only for bare
integer strings), and `Localhost 3000` only when `parseInt` yields `NaN`. -/
theorem c6_url_case_analysis_amended (s : String) :
    (∀ u, parseURL s = some u → u.hostname = "localhost" →
      urlToTestEnv s = TestEnv.Localhost (match u.port with | some p => (p : Int) | none => 3000)) ∧
    (∀ u, parseURL s = some u → u.hostname ≠ "localhost" →
      urlToTestEnv s = TestEnv.SchemeAndDomain s) ∧
    (parseURL s = none → ∀ n, parseIntJs s = some n → urlToTestEnv s = TestEnv.Localhost n) ∧
    (parseURL s = none → parseIntJs s = none → urlToTestEnv s = TestEnv.Localhost 3000) := by
  refine ⟨?_, ?_, ?_, ?_⟩
  · intro u hp hh
    have hb : (u.hostname == "localhost") = true := by simp [hh]
    simp only [urlToTestEnv, hp, hb]
    simp
  · intro u hp hh
    have hb : (u.hostname == "localhost") = false := by simp [hh]
    simp only [urlToTestEnv, hp, hb]
    simp
  · intro hp n hi
    simp only [urlToTestEnv, hp, hi]
  · intro hp hi
    simp only [urlToTestEnv, hp, hi]

/-- Witness for the amended C6 at concrete inputs, one per clause, including
a non-http special scheme and a userinfo-carrying authority. -/
theorem c6_url_case_analysis_amended_witness :
    urlToTestEnv "http://localhost:4000" = TestEnv.Localhost 4000 ∧
    urlToTestEnv "ftp://localhost:3000" = TestEnv.Localhost 3000 ∧
    urlToTestEnv "https://example.com" = TestEnv.SchemeAndDomain "https://example.com" ∧
    urlToTestEnv "http://user@example.com" =
      TestEnv.SchemeAndDomain "http://user@example.com" ∧
    urlToTestEnv "5000" = TestEnv.Localhost 5000 ∧
    urlToTestEnv "not-a-valid-url-or-port" = TestEnv.Localhost 3000 :=
  ⟨(c6_url_case_analysis_amended "http://localhost:4000").1 ⟨"http", "localhost", some 4000⟩
      (by decide) rfl,
   (c6_url_case_analysis_amended "ftp://localhost:3000").1 ⟨"ftp", "localhost", some 3000⟩
      (by decide) rfl,
   (c6_url_case_analysis_amended "https://example.com").2.1 ⟨"https", "example.com", none⟩
      (by decide) (by decide),
   (c6_url_case_analysis_amended "http://user@example.com").2.1 ⟨"http", "example.com", none⟩
      (by decide) (by decide),
   (c6_url_case_analysis_amended "5000").2.2.1 (by decide) 5000 (by decide),
   (c6_url_case_analysis_amended "not-a-valid-url-or-port").2.2.2 (by decide) (by decide)⟩

/-! ## File Reconciliation Gate

Embeds `overwriteFileWithConfirmation` (fileUtils.ts lines 47-102).  The
filesystem read and the interactive confirm are the function's two external
inputs; they appear as the `existingContent` parameter (`none` models ENOENT,
i.e. `readFileSafe` returning null) and the `answer` parameter (the result of
the `confirm` prompt, with `cancel` modelling `isCancel`).  The outcome
records the observable effects: the content written (if any), whether the
diff was rendered, whether the prompt was reached, and whether the process
was terminated (`process.exit(0)` on cancel).
-/

inductive ConfirmAnswer where
  | yes
  | no
  | cancel
deriving DecidableEq

structure GateOutcome where
  written : Option String
  diffShown : Bool
  prompted : Bool
  exitedProcess : Bool
deriving DecidableEq

def overwriteFileWithConfirmation (existingContent : Option String) (newContent : String)
    (showDiff : Bool) (answer : ConfirmAnswer) : GateOutcome :=
  match existingContent with
  | none => ⟨some newContent, false, false, false⟩
  | some existing =>
    if existing = newContent then ⟨none, false, false, false⟩
    else
      match answer with
      | .cancel => ⟨none, showDiff, true, true⟩
      | .yes => ⟨some newContent, showDiff, true, false⟩
      | .no => ⟨none, showDiff, true, false⟩

/-! ## Env-file update

Embeds `parseEnvFile` and `updateEnvFile` (envUtils.ts).  The file content is
a parameter: `none` models ENOENT (both the `parseEnvFile` catch branch and
the `fs.readFile` catch in `updateEnvFile` observe the same file).  The
result is `some updatedContent` when a write happens and `none` when not.
-/

structure FrontendIntegrationTestSettings where
  login_redirect_path : String
  logout_redirect_path : String
  test_env : Option TestEnv
deriving DecidableEq

structure FrontendUpdateRequest where
  test_env : TestEnv
  login_redirect_path : String
  logout_redirect_path : String
deriving DecidableEq

inductive RedirectConfigOutcome where
  | alreadyConfigured
  | promptedThenUpdated (req : FrontendUpdateRequest)
  | promptedThenDeclined
  | promptedThenCancelled
deriving DecidableEq

def configureNextJsRedirectPaths (currentSettings : FrontendIntegrationTestSettings)
    (portUrl : String) (portTestEnv : TestEnv) (answer : ConfirmAnswer) :
    RedirectConfigOutcome :=
  let loginRedirectPath := "/api/auth/callback"
  let logoutRedirectPath := "/api/auth/logout"
  let currentUrl := match currentSettings.test_env with
    | some te => testEnvToUrl te
    | none => "none"
  let needsUpdate :=
    (currentSettings.login_redirect_path != loginRedirectPath) ||
    (currentSettings.logout_redirect_path != logoutRedirectPath) ||
    (currentUrl != portUrl)
  if needsUpdate then
    match answer with
    | .cancel => .promptedThenCancelled
    | .no => .promptedThenDeclined
    | .yes => .promptedThenUpdated ⟨portTestEnv, loginRedirectPath, logoutRedirectPath⟩
  else .alreadyConfigured

/-- C7: the File Reconciliation Gate.  With no prior content the proposed
content is written at once without diff or prompt; identical on-disk content
means no write and no prompt; differing content shows the diff and prompts,
writing exactly on an affirmative answer, leaving the file untouched on
decline, and on cancellation leaving the file untouched while terminating the
process. -/
theorem c7_file_gate_state_machine (existing : Option String) (newContent : String)
    (answer : ConfirmAnswer) :
    (existing = none →
      overwriteFileWithConfirmation existing newContent true answer =
        ⟨some newContent, false, false, false⟩) ∧
    (∀ e, existing = some e → e = newContent →
      overwriteFileWithConfirmation existing newContent true answer =
        ⟨none, false, false, false⟩) ∧
    (∀ e, existing = some e → e ≠ newContent →
      (overwriteFileWithConfirmation existing newContent true answer).diffShown = true ∧
      (overwriteFileWithConfirmation existing newContent true answer).prompted = true ∧
      (answer = .yes →
        overwriteFileWithConfirmation existing newContent true answer =
          ⟨some newContent, true, true, false⟩) ∧
      (answer = .no →
        overwriteFileWithConfirmation existing newContent true answer =
          ⟨none, true, true, false⟩) ∧
      (answer = .cancel →
        overwriteFileWithConfirmation existing newContent true answer =
          ⟨none, true, true, true⟩)) := by
  refine ⟨?_, ?_, ?_⟩
  · intro h
    subst h
    rfl
  · intro e he hq
    subst he
    subst hq
    simp [overwriteFileWithConfirmation]
  · intro e he hq
    subst he
    cases answer <;> simp [overwriteFileWithConfirmation, hq]

/-- Witness for C7 at concrete inputs, one per state. -/
theorem c7_file_gate_state_machine_witness :
    overwriteFileWithConfirmation none "content" true ConfirmAnswer.yes =
      ⟨some "content", false, false, false⟩ ∧
    overwriteFileWithConfirmation (some "content") "content" true ConfirmAnswer.no =
      ⟨none, false, false, false⟩ ∧
    overwriteFileWithConfirmation (some "old") "new" true ConfirmAnswer.cancel =
      ⟨none, true, true, true⟩ :=
  ⟨(c7_file_gate_state_machine none "content" ConfirmAnswer.yes).1 rfl,
   (c7_file_gate_state_machine (some "content") "content" ConfirmAnswer.no).2.1 "content" rfl rfl,
   ((c7_file_gate_state_machine (some "old") "new" ConfirmAnswer.cancel).2.2 "old" rfl
      (by decide)).2.2.2.2 rfl⟩

/-- C9: Remote-reconciliation no-op.  When the fetched settings already carry
the desired login and logout redirect paths and a test environment whose URL
rendering equals the locally determined URL, no update request is issued and
the outcome is the already-configured report, whatever the confirm answer
would have been. -/
theorem c9_reconciler_noop (cur : FrontendIntegrationTestSettings) (portUrl : String)
    (portTestEnv : TestEnv) (answer : ConfirmAnswer)
    (h1 : cur.login_redirect_path = "/api/auth/callback")
    (h2 : cur.logout_redirect_path = "/api/auth/logout")
    (h3 : ∃ cte, cur.test_env = some cte ∧ testEnvToUrl cte = portUrl) :
    configureNextJsRedirectPaths cur portUrl portTestEnv answer =
      RedirectConfigOutcome.alreadyConfigured := by
  obtain ⟨cte, hte, hurl⟩ := h3
  simp [configureNextJsRedirectPaths, h1, h2, hte, hurl]

/-- Witness for C9 at a concrete already-configured settings record. -/
theorem c9_reconciler_noop_witness :
    configureNextJsRedirectPaths
      ⟨"/api/auth/callback", "/api/auth/logout", some (TestEnv.Localhost 3000)⟩
      "http://localhost:3000" (TestEnv.Localhost 3000) ConfirmAnswer.yes =
      RedirectConfigOutcome.alreadyConfigured :=
  c9_reconciler_noop _ _ _ _ rfl rfl ⟨TestEnv.Localhost 3000, rfl, rfl⟩

/-! ## The syntax tree

The tree the two mutators traverse, mirroring the ts-morph node kinds the
source inspects.  `jsxElement` fuses a `JsxElement` with its opening element:
the opening element's tag identifier is the `tag` field and its attribute text
is carried verbatim in `attrs` (the source never recurses into attributes
when searching for insertion targets).  `jsxExpression` is a brace-enclosed
`JsxExpression` with its inner expression nodes as children; `exprNode` is
any other expression node (parenthesized, binary, ...) whose children are
visited by `forEachChild`; `ident` is an `Identifier`; `jsxText` carries raw
text or token runs that contain no further nodes. -/

mutual
inductive Node where
  | jsxElement (tag : String) (attrs : String) (children : Forest)
  | jsxSelfClosing (tag : String) (attrs : String)
  | jsxExpression (children : Forest)
  | exprNode (children : Forest)
  | ident (name : String)
  | jsxText (text : String)
deriving DecidableEq
inductive Forest where
  | nil
  | cons (head : Node) (tail : Forest)
deriving DecidableEq
end

def Forest.ofList : List Node → Forest
  | [] => .nil
  | n :: ns => .cons n (Forest.ofList ns)

/-! Node text, as ts-morph `getText()` renders it. -/
mutual
def serializeNode : Node → String
  | .jsxElement t a cs => "<" ++ t ++ a ++ ">" ++ serializeForest cs ++ "</" ++ t ++ ">"
  | .jsxSelfClosing t a => "<" ++ t ++ a ++ "/>"
  | .jsxExpression cs => "\x7b" ++ serializeForest cs ++ "\x7d"
  | .exprNode cs => serializeForest cs
  | .ident n => n
  | .jsxText s => s
def serializeForest : Forest → String
  | .nil => ""
  | .cons n ns => serializeNode n ++ serializeForest ns
end

/-- Number of matches of the regex `<[^>]+>` in a character sequence, as a
left-to-right non-overlapping scan: a match is a `<`, at least one non-`>`
character, then the next `>`. -/
def countTagsGo : List Char → Bool → Bool → Nat
  | [], _, _ => 0
  | c :: cs, inTag, hasContent =>
    if inTag then
      if c == '>' then (if hasContent then 1 else 0) + countTagsGo cs false false
      else countTagsGo cs true true
    else
      if c == '<' then countTagsGo cs true false
      else countTagsGo cs false false

def countTags (s : String) : Nat :=
  countTagsGo s.data false false

/-- Substring containment, as JS `String.prototype.includes`. -/
def strIncludes (hay needle : String) : Bool :=
  hay.data.tails.any (fun t => needle.data.isPrefixOf t)

/-! First `Identifier` descendant, as `getFirstDescendantByKind(Identifier)`:
preorder; the tag identifier is the first identifier under an element's
opening element. -/
mutual
def firstIdentN : Node → Option String
  | .jsxElement t _ _ => some t
  | .jsxSelfClosing t _ => some t
  | .jsxExpression cs => firstIdentF cs
  | .exprNode cs => firstIdentF cs
  | .ident n => some n
  | .jsxText _ => none
def firstIdentF : Forest → Option String
  | .nil => none
  | .cons n ns =>
    match firstIdentN n with
    | some x => some x
    | none => firstIdentF ns
end

/-! Whether a `JsxOpeningElement` whose tag identifier is `AuthProvider`
occurs in the subtree (the detection loop checks opening elements only, so a
self-closing `AuthProvider` does not count). -/
mutual
def hasAPN : Node → Bool
  | .jsxElement t _ cs => t == "AuthProvider" || hasAPF cs
  | .jsxExpression cs => hasAPF cs
  | .exprNode cs => hasAPF cs
  | _ => false
def hasAPF : Forest → Bool
  | .nil => false
  | .cons n ns => hasAPN n || hasAPF ns
end

/-- The attribute text ts-morph re-parses out of the inserted wrapper. -/
def authAttr : String := " authUrl=\x7bprocess.env.NEXT_PUBLIC_AUTH_URL!\x7d"

/-- The tree the inserted text
`<AuthProvider authUrl=\x7bprocess.env.NEXT_PUBLIC_AUTH_URL!\x7d>...</AuthProvider>`
re-parses to, around a given subtree. -/
def wrapWithAuthProvider (n : Node) : Node :=
  .jsxElement "AuthProvider" authAttr (.cons n .nil)

/-- The replacement text of the layout mutator, re-parsed: the provider
element around the `children` expression. -/
def authWrapChildren : Node :=
  wrapWithAuthProvider (.jsxExpression (.cons (.ident "children") .nil))

/-! Candidates of the layout mutator's complex branch: the depth-first walk
`findInnermostChildren` visits every child with `forEachChild`, counting one
level per descent step, and records a `JsxExpression` whose first identifier
descendant is exactly `children` whenever it is strictly deeper than every
earlier record.  `candLevelsF cs l` lists the levels of those candidates in
visit order, starting from the children of the searched root at level `l`. -/
mutual
def candLevelsN : Node → Int → List Int
  | .jsxExpression cs, l =>
    (if firstIdentF cs == some "children" then [l] else []) ++ candLevelsF cs (l + 1)
  | .jsxElement _ _ cs, l => candLevelsF cs (l + 1)
  | .exprNode cs, l => candLevelsF cs (l + 1)
  | _, _ => []
def candLevelsF : Forest → Int → List Int
  | .nil, _ => []
  | .cons n ns, l => candLevelsN n l ++ candLevelsF ns l
end

/-! Replacement for the layout mutator's complex branch: replace the first
candidate (in the same visit order) whose level equals `M` by the provider
wrapper; the `Bool` threads the single-replacement state. -/
mutual
def replAtChildN (M : Int) : Node → Int → Bool → Node × Bool
  | .jsxExpression cs, l, d =>
    if !d && (firstIdentF cs == some "children") && (l == M) then (authWrapChildren, true)
    else
      let r := replAtChildF M cs (l + 1) d
      (.jsxExpression r.1, r.2)
  | .jsxElement t a cs, l, d =>
    let r := replAtChildF M cs (l + 1) d
    (.jsxElement t a r.1, r.2)
  | .exprNode cs, l, d =>
    let r := replAtChildF M cs (l + 1) d
    (.exprNode r.1, r.2)
  | n, _, d => (n, d)
def replAtChildF (M : Int) : Forest → Int → Bool → Forest × Bool
  | .nil, _, d => (.nil, d)
  | .cons n ns, l, d =>
    let r1 := replAtChildN M n l d
    let r2 := replAtChildF M ns l r1.2
    (.cons r1.1 r2.1, r2.2)
end

/-! The layout mutator's simple branch: scan the body element's JSX children
in order for the first `JsxExpression` whose text includes `children`, and
replace it with the provider wrapper. -/
def replSimpleChild : Forest → Option Forest
  | .nil => none
  | .cons n ns =>
    match n with
    | .jsxExpression cs =>
      if strIncludes (serializeNode (.jsxExpression cs)) "children" then
        some (.cons authWrapChildren ns)
      else
        match replSimpleChild ns with
        | some ns' => some (.cons (.jsxExpression cs) ns')
        | none => none
    | _ =>
      match replSimpleChild ns with
      | some ns' => some (.cons n ns')
      | none => none

/-! Candidates of the app-file mutator's complex branch
(`findInnermostComponent`): a `JsxSelfClosingElement` tagged `Component` at
its own level, or the opening element of a `Component` `JsxElement`, which
`forEachChild` visits one level below the element itself. -/
mutual
def compLevelsN : Node → Int → List Int
  | .jsxElement t _ cs, l =>
    (if t == "Component" then [l + 1] else []) ++ compLevelsF cs (l + 1)
  | .jsxSelfClosing t _, l => if t == "Component" then [l] else []
  | .jsxExpression cs, l => compLevelsF cs (l + 1)
  | .exprNode cs, l => compLevelsF cs (l + 1)
  | _, _ => []
def compLevelsF : Forest → Int → List Int
  | .nil, _ => []
  | .cons n ns, l => compLevelsN n l ++ compLevelsF ns l
end

/-! Replacement for the app-file complex branch: wrap the first candidate at
level `M` (the matched opening element's parent element, or the self-closing
element itself) in the provider element, keeping its text inside. -/
mutual
def replAtCompN (M : Int) : Node → Int → Bool → Node × Bool
  | .jsxElement t a cs, l, d =>
    if !d && (t == "Component") && (l + 1 == M) then
      (wrapWithAuthProvider (.jsxElement t a cs), true)
    else
      let r := replAtCompF M cs (l + 1) d
      (.jsxElement t a r.1, r.2)
  | .jsxSelfClosing t a, l, d =>
    if !d && (t == "Component") && (l == M) then (wrapWithAuthProvider (.jsxSelfClosing t a), true)
    else (.jsxSelfClosing t a, d)
  | .jsxExpression cs, l, d =>
    let r := replAtCompF M cs (l + 1) d
    (.jsxExpression r.1, r.2)
  | .exprNode cs, l, d =>
    let r := replAtCompF M cs (l + 1) d
    (.exprNode r.1, r.2)
  | n, _, d => (n, d)
def replAtCompF (M : Int) : Forest → Int → Bool → Forest × Bool
  | .nil, _, d => (.nil, d)
  | .cons n ns, l, d =>
    let r1 := replAtCompN M n l d
    let r2 := replAtCompF M ns l r1.2
    (.cons r1.1 r2.1, r2.2)
end

/-! The app-file mutator's simple branch: `forEachDescendant` without early
exit keeps overwriting the found element, so the preorder-last `Component`
element or self-closing element wins; an element's opening tag is visited
before its children, so descendants beat their ancestor. -/
mutual
def replLastCompN : Node → Option Node
  | .jsxElement t a cs =>
    match replLastCompF cs with
    | some cs' => some (.jsxElement t a cs')
    | none =>
      if t == "Component" then some (wrapWithAuthProvider (.jsxElement t a cs)) else none
  | .jsxSelfClosing t a =>
    if t == "Component" then some (wrapWithAuthProvider (.jsxSelfClosing t a)) else none
  | .jsxExpression cs =>
    match replLastCompF cs with
    | some cs' => some (.jsxExpression cs')
    | none => none
  | .exprNode cs =>
    match replLastCompF cs with
    | some cs' => some (.exprNode cs')
    | none => none
  | _ => none
def replLastCompF : Forest → Option Forest
  | .nil => none
  | .cons n ns =>
    match replLastCompF ns with
    | some ns' => some (.cons n ns')
    | none =>
      match replLastCompN n with
      | some n' => some (.cons n' ns)
      | none => none
end

/-- The running maximum the imperative walk keeps (`deepestLevel` starts at
-1 and is replaced whenever a strictly deeper candidate appears, so the
record finally held is the first candidate at the overall maximum). -/
def maxLvl (ls : List Int) : Option Int :=
  match ls with
  | [] => none
  | x :: xs => some (xs.foldl max x)

/-! The file-wide search for the `body` element: `forEachDescendant` visits
opening elements in preorder and the assignment overwrites, so the
preorder-last `body` `JsxElement` wins; a `body` nested inside another is
visited later, so descendants beat ancestors, and later siblings beat earlier
ones. -/
mutual
def findLastBodyN : Node → Option Node
  | .jsxElement t a cs =>
    match findLastBodyF cs with
    | some b => some b
    | none => if t == "body" then some (.jsxElement t a cs) else none
  | .jsxExpression cs => findLastBodyF cs
  | .exprNode cs => findLastBodyF cs
  | _ => none
def findLastBodyF : Forest → Option Node
  | .nil => none
  | .cons n ns =>
    match findLastBodyF ns with
    | some b => some b
    | none => findLastBodyN n
end

/-! In-place replacement of the node `findLastBody` found. -/
mutual
def replLastBodyN (b : Node) : Node → Node
  | .jsxElement t a cs =>
    if (findLastBodyF cs).isSome then .jsxElement t a (replLastBodyF b cs)
    else if t == "body" then b
    else .jsxElement t a cs
  | .jsxExpression cs => .jsxExpression (replLastBodyF b cs)
  | .exprNode cs => .exprNode (replLastBodyF b cs)
  | n => n
def replLastBodyF (b : Node) : Forest → Forest
  | .nil => .nil
  | .cons n ns =>
    if (findLastBodyF ns).isSome then .cons n (replLastBodyF b ns)
    else .cons (replLastBodyN b n) ns
end

/-! ## Source files

Statements carry exactly what the two mutators observe: function
declarations expose their name, whether an export modifier is present
(`getFirstDescendantByKind(ExportKeyword)`), a raw header text for printing,
and their body statements; `export default <expr>` statements
(`ExportAssignment`) expose the expression text; everything else is raw
text.  Inside a function body only return statements are structured: their
argument is the expression tree (`none` for a bare `return;`). -/

inductive FnBodyStmt where
  | retStmt (arg : Option Node)
  | otherFn (text : String)
deriving DecidableEq

inductive Stmt where
  | funcDecl (name : Option String) (exported : Bool) (header : String) (body : List FnBodyStmt)
  | exportAssign (exprText : String)
  | otherStmt (text : String)
deriving DecidableEq

structure ImportDecl where
  moduleSpecifier : String
  namedImports : List String
deriving DecidableEq

structure SourceFile where
  imports : List ImportDecl
  stmts : List Stmt
deriving DecidableEq

/-- The import declaration `addImportDeclaration` appends. -/
def authImportDecl : ImportDecl :=
  ⟨"@propelauth/nextjs/client", ["AuthProvider"]⟩

/-- Embeds the import check of both mutators: an import from
`@propelauth/nextjs/client` with `AuthProvider` among its named imports. -/
def hasAuthImport (imports : List ImportDecl) : Bool :=
  imports.any (fun i =>
    i.moduleSpecifier == "@propelauth/nextjs/client" && i.namedImports.contains "AuthProvider")

/-! Finding the preorder-last `body` element across the whole file: the JSX
trees reachable from the file live in the return statements of its function
declarations, visited in statement order. -/

def findLastBodyFnS : FnBodyStmt → Option Node
  | .retStmt (some n) => findLastBodyN n
  | _ => none

def findLastBodyFnB : List FnBodyStmt → Option Node
  | [] => none
  | s :: ss =>
    match findLastBodyFnB ss with
    | some b => some b
    | none => findLastBodyFnS s

def findLastBodyStmt : Stmt → Option Node
  | .funcDecl _ _ _ body => findLastBodyFnB body
  | _ => none

def findLastBodyStmts : List Stmt → Option Node
  | [] => none
  | s :: ss =>
    match findLastBodyStmts ss with
    | some b => some b
    | none => findLastBodyStmt s

def replLastBodyFnS (b : Node) : FnBodyStmt → FnBodyStmt
  | .retStmt (some n) => .retStmt (some (replLastBodyN b n))
  | s => s

def replLastBodyFnB (b : Node) : List FnBodyStmt → List FnBodyStmt
  | [] => []
  | s :: ss =>
    if (findLastBodyFnB ss).isSome then s :: replLastBodyFnB b ss
    else replLastBodyFnS b s :: ss

def replLastBodyStmt (b : Node) : Stmt → Stmt
  | .funcDecl n e h body => .funcDecl n e h (replLastBodyFnB b body)
  | s => s

def replLastBodyStmts (b : Node) : List Stmt → List Stmt
  | [] => []
  | s :: ss =>
    if (findLastBodyStmts ss).isSome then s :: replLastBodyStmts b ss
    else replLastBodyStmt b s :: ss

/-- The per-body work of `modifyAppRouterLayout` (nextJsUtils.ts lines
442-509): detect an `AuthProvider` opening element among the body's
descendants; if absent, classify by the tag-count heuristic over the body's
text and insert the wrapper around the located `children` expression.
Returns the body after mutation, the `modified` flag, and the detection
result. -/
def processBody : Node → Node × Bool × Bool
  | .jsxElement t a cs =>
    if hasAPF cs then (.jsxElement t a cs, false, true)
    else
      let bodyText := serializeNode (.jsxElement t a cs)
      let matchCount := countTags bodyText
      if bodyText.data.contains '<' && bodyText.data.contains '>' && decide (matchCount > 2) then
        match maxLvl (candLevelsF cs 0) with
        | none => (.jsxElement t a cs, false, false)
        | some M => (.jsxElement t a (replAtChildF M cs 0 false).1, true, false)
      else
        match replSimpleChild cs with
        | some cs' => (.jsxElement t a cs', true, false)
        | none => (.jsxElement t a cs, false, false)
  | n => (n, false, false)

structure MutationResultA where
  modified : Bool
  updated : SourceFile
  hasAuthProvider : Bool
deriving DecidableEq

/-- Embeds `modifyAppRouterLayout` (nextJsUtils.ts lines 391-525) at the
tree level: ensure the import, find the preorder-last `body` element, and run
the detection/insertion on it in place.  The returned `hasAuthProvider` is
`hasAuthProvider || (hasAuthProviderImport && !!bodyElement)` as in the
source, with `hasAuthProviderImport` read before the import is added. -/
def modifyAppRouterLayoutAst (sf : SourceFile) : MutationResultA :=
  let hasImp := hasAuthImport sf.imports
  let sf1 : SourceFile :=
    if hasImp then sf else { sf with imports := sf.imports ++ [authImportDecl] }
  match findLastBodyStmts sf1.stmts with
  | none => ⟨false, sf1, false⟩
  | some b =>
    let r := processBody b
    ⟨r.2.1, { sf1 with stmts := replLastBodyStmts r.1 sf1.stmts }, r.2.2 || hasImp⟩

/-! ## The pages-router app mutator -/

/-- Expression texts of the file's `export default <expr>` statements. -/
def expTexts (stmts : List Stmt) : List String :=
  stmts.filterMap fun s =>
    match s with
    | .exportAssign e => some e
    | _ => none

/-- The filter of `modifyPagesRouterApp` over the file's function
declarations: named `App` or `MyApp`, carrying an export modifier, or named
by some `export default` statement (an unnamed function never matches the
export-assignment text, mirroring `undefined === text`). -/
def isAppFn (exps : List String) : Stmt → Bool
  | .funcDecl name exported _ _ =>
    name == some "App" || name == some "MyApp" || exported ||
      (match name with
       | some n => exps.contains n
       | none => false)
  | _ => false

/-- First function declaration passing the filter, in statement order
(`getFunctions()[0]` after `filter`). -/
def findAppFn (exps : List String) : List Stmt → Option Stmt
  | [] => none
  | s :: ss => if isAppFn exps s then some s else findAppFn exps ss

def getFnBody : Stmt → List FnBodyStmt
  | .funcDecl _ _ _ b => b
  | _ => []

/-- First return statement of the function
(`getFirstDescendantByKind(ReturnStatement)`); `some arg` carries the
returned expression, itself `none` for a bare `return;`. -/
def firstRetArg : List FnBodyStmt → Option (Option Node)
  | [] => none
  | .retStmt a :: _ => some a
  | _ :: ss => firstRetArg ss

def replFirstRet (a' : Option Node) : List FnBodyStmt → List FnBodyStmt
  | [] => []
  | .retStmt _ :: ss => .retStmt a' :: ss
  | s :: ss => s :: replFirstRet a' ss

def replRetInStmt (a' : Option Node) : Stmt → Stmt
  | .funcDecl n e h b => .funcDecl n e h (replFirstRet a' b)
  | s => s

/-- In-place mutation of the first app function's first return statement. -/
def replaceAppRet (exps : List String) (a' : Option Node) : List Stmt → List Stmt
  | [] => []
  | s :: ss =>
    if isAppFn exps s then replRetInStmt a' s :: ss
    else s :: replaceAppRet exps a' ss

/-- Text of the return statement, as `getText()` renders it (the source
trims it; trimming does not change the substring and tag-count observations
made of it). -/
def retText : Option Node → String
  | some n => "return " ++ serializeNode n
  | none => "return;"

/-- Embeds `modifyPagesRouterApp` (nextJsUtils.ts lines 564-721) at the tree
level. -/
def modifyPagesRouterAppAst (sf : SourceFile) : MutationResultA :=
  let hasImp := hasAuthImport sf.imports
  let sf1 : SourceFile :=
    if hasImp then sf else { sf with imports := sf.imports ++ [authImportDecl] }
  let exps := expTexts sf1.stmts
  match findAppFn exps sf1.stmts with
  | none => ⟨false, sf1, false⟩
  | some f =>
    match firstRetArg (getFnBody f) with
    | none => ⟨false, sf1, hasImp⟩
    | some arg =>
      let apIn := match arg with
        | some a => hasAPN a
        | none => false
      if apIn then ⟨false, sf1, true⟩
      else
        let returnContent := retText arg
        let matchCount := countTags returnContent
        if strIncludes returnContent "Provider" ||
            (returnContent.data.contains '<' && returnContent.data.contains '>' &&
              decide (matchCount > 2)) then
          match arg with
          | none => ⟨false, sf1, hasImp⟩
          | some a =>
            match maxLvl (compLevelsN a 0) with
            | none => ⟨false, sf1, hasImp⟩
            | some M =>
              ⟨true,
               { sf1 with stmts := replaceAppRet exps (some (replAtCompN M a 0 false).1) sf1.stmts },
               hasImp⟩
        else
          match arg with
          | none => ⟨false, sf1, hasImp⟩
          | some a =>
            match replLastCompN a with
            | some a' =>
              ⟨true, { sf1 with stmts := replaceAppRet exps (some a') sf1.stmts }, hasImp⟩
            | none => ⟨false, sf1, hasImp⟩

/-! ## Printing and the string-level entry points -/

def serializeImport (i : ImportDecl) : String :=
  "import \x7b " ++ String.intercalate ", " i.namedImports ++ " \x7d from \"" ++
    i.moduleSpecifier ++ "\";\n"

def serializeFnStmt : FnBodyStmt → String
  | .retStmt a => retText a
  | .otherFn t => t

def serializeStmt : Stmt → String
  | .funcDecl _ _ header body =>
    header ++ " \x7b\n" ++ String.intercalate "\n" (body.map serializeFnStmt) ++ "\n\x7d\n"
  | .exportAssign e => "export default " ++ e ++ "\n"
  | .otherStmt t => t ++ "\n"

def serializeFile (sf : SourceFile) : String :=
  String.join (sf.imports.map serializeImport) ++ String.join (sf.stmts.map serializeStmt)

structure MutationResultS where
  modified : Bool
  updatedContent : String
  hasAuthProvider : Bool
deriving DecidableEq

/-- String-level `modifyAppRouterLayout`: parse with the external TypeScript
parser, run the tree-level mutator, print.  The `try`/`catch` of the source
(lines 396, 516-524) appears as the `none` branch: when the parser throws,
the original content comes back with both flags false. -/
def modifyAppRouterLayout (parse : String → Option SourceFile) (layoutContent : String) :
    MutationResultS :=
  match parse layoutContent with
  | none => ⟨false, layoutContent, false⟩
  | some sf =>
    let r := modifyAppRouterLayoutAst sf
    ⟨r.modified, serializeFile r.updated, r.hasAuthProvider⟩

/-- String-level `modifyPagesRouterApp`, with the same `try`/`catch` shape
(lines 569, 712-720). -/
def modifyPagesRouterApp (parse : String → Option SourceFile) (appContent : String) :
    MutationResultS :=
  match parse appContent with
  | none => ⟨false, appContent, false⟩
  | some sf =>
    let r := modifyPagesRouterAppAst sf
    ⟨r.modified, serializeFile r.updated, r.hasAuthProvider⟩

/-- A layout file with an unclosed `div` tag inside the body. -/
def brokenLayoutSrc : String :=
  "export default function RootLayout(\x7b children \x7d) \x7b\n  return <body><div \x7bchildren\x7d</body>\n\x7d\n"

/-- The best-effort tree the error-tolerant TypeScript parser recovers from
`brokenLayoutSrc`: the `body` element survives; the unclosed `div` becomes an
element whose attribute text swallowed the brace expression, so the body has
no `JsxExpression` child left to wrap. -/
def brokenLayoutTree : SourceFile :=
  ⟨[],
   [.funcDecl (some "RootLayout") true
      "export default function RootLayout(\x7b children \x7d)"
      [.retStmt (some (.jsxElement "body" ""
        (.cons (.jsxElement "div" " \x7bchildren\x7d" .nil) .nil)))]]⟩

/-- Modelled from the spec: the recovery the external Source Parser (ts-morph
over the TypeScript compiler, absent from src/) performs on the one broken
input analysed here.  The TypeScript parser is error-tolerant: syntactically
broken JSX yields a best-effort tree rather than an exception, which the
repository's own test (`should gracefully handle invalid JSX`) acknowledges
by allowing the import to be added on such input.  The table records exactly
that recovery; no theorem reads it outside its recorded entry, so the `none`
fallback carries no claim about when the real parser throws. -/
def tsMorphParse (s : String) : Option SourceFile :=
  if s == brokenLayoutSrc then some brokenLayoutTree else none

/-- Modelled from the spec: a run in which the parse/mutation pipeline throws
on every input (the spec's "insertion fails for any internal reason (parser
exception, unexpected node shape)"), so each call lands in the mutators'
catch branch.  The parse is the first step of the try block, so the throwing
run is modelled at the parse parameter. -/
def throwingPipeline : String → Option SourceFile := fun _ => none

/-! ## Concrete source files used by the scenario claims -/

/-- The spec's nested-providers `_app.tsx` scenario: `MyApp` returns
`<Component \x7b...pageProps\x7d />` inside
`RecoilRoot > QueryClientProvider > ThemeProvider`. -/
def nestedProvidersApp : SourceFile :=
  ⟨[⟨"../styles/globals.css", []⟩, ⟨"next/app", ["AppProps"]⟩, ⟨"@acme/ui", ["ThemeProvider"]⟩,
    ⟨"react-query", ["QueryClient", "QueryClientProvider"]⟩, ⟨"recoil", ["RecoilRoot"]⟩],
   [.otherStmt "const queryClient = new QueryClient()",
    .funcDecl (some "MyApp") true
      "export default function MyApp(\x7b Component, pageProps \x7d: AppProps)"
      [.retStmt (some (.exprNode (.ofList [.jsxText "(\n    ",
        .jsxElement "RecoilRoot" "" (.ofList [.jsxText "\n      ",
          .jsxElement "QueryClientProvider" " client=\x7bqueryClient\x7d" (.ofList [.jsxText "\n        ",
            .jsxElement "ThemeProvider" "" (.ofList [.jsxText "\n          ",
              .jsxSelfClosing "Component" " \x7b...pageProps\x7d ", .jsxText "\n        "]),
            .jsxText "\n      "]),
          .jsxText "\n    "]),
        .jsxText "\n  )"])))]]⟩

/-- `nestedProvidersApp` with the provider wrapper inserted immediately
around the `Component` element only; every outer provider element is
unchanged, and the auth import is appended. -/
def nestedProvidersAppWrapped : SourceFile :=
  ⟨[⟨"../styles/globals.css", []⟩, ⟨"next/app", ["AppProps"]⟩, ⟨"@acme/ui", ["ThemeProvider"]⟩,
    ⟨"react-query", ["QueryClient", "QueryClientProvider"]⟩, ⟨"recoil", ["RecoilRoot"]⟩,
    authImportDecl],
   [.otherStmt "const queryClient = new QueryClient()",
    .funcDecl (some "MyApp") true
      "export default function MyApp(\x7b Component, pageProps \x7d: AppProps)"
      [.retStmt (some (.exprNode (.ofList [.jsxText "(\n    ",
        .jsxElement "RecoilRoot" "" (.ofList [.jsxText "\n      ",
          .jsxElement "QueryClientProvider" " client=\x7bqueryClient\x7d" (.ofList [.jsxText "\n        ",
            .jsxElement "ThemeProvider" "" (.ofList [.jsxText "\n          ",
              wrapWithAuthProvider (.jsxSelfClosing "Component" " \x7b...pageProps\x7d "),
              .jsxText "\n        "]),
            .jsxText "\n      "]),
          .jsxText "\n    "]),
        .jsxText "\n  )"])))]]⟩

/-- C5: on the nested-providers `_app.tsx` the mutator wraps the provider
element immediately around the deepest `Component` element only, leaves all
outer provider elements untouched, and reports `modified = true` (the
`Component` is the unique candidate at maximal depth of the depth-first
search). -/
theorem c5_nested_providers_scenario :
    modifyPagesRouterAppAst nestedProvidersApp =
      ⟨true, nestedProvidersAppWrapped, false⟩ := by
  decide

/-- A layout file with no `body` element and no auth import. -/
def layoutNoHost : SourceFile := ⟨[], [.otherStmt "export const metadata = 1"]⟩

/-- An app file with no function declaration and no auth import. -/
def appNoFn : SourceFile := ⟨[], [.otherStmt "const x = 1"]⟩

/-- C10: `modified = false` does not imply unchanged text: on a well-formed
input with no auth import and no recognizable host structure, both mutators
append the import (changing the printed content) yet report
`modified = false`. -/
theorem c10_modified_false_content_changed :
    (modifyAppRouterLayoutAst layoutNoHost).modified = false ∧
    serializeFile (modifyAppRouterLayoutAst layoutNoHost).updated ≠ serializeFile layoutNoHost ∧
    (modifyPagesRouterAppAst appNoFn).modified = false ∧
    serializeFile (modifyPagesRouterAppAst appNoFn).updated ≠ serializeFile appNoFn := by
  refine ⟨by decide, by decide, by decide, by decide⟩

/-- C2 counterexample: on a layout whose JSX is syntactically broken (an
unclosed `div` inside the body), the function returns `modified = false` and
`hasAuthProvider = false` as the claim states, but `updatedContent` is NOT
textually identical to the input: the error-tolerant parser recovers a tree
and the auth import is appended before the insertion target is searched
for. -/
theorem c2_malformed_counterexample :
    (modifyAppRouterLayout tsMorphParse brokenLayoutSrc).modified = false ∧
    (modifyAppRouterLayout tsMorphParse brokenLayoutSrc).hasAuthProvider = false ∧
    (modifyAppRouterLayout tsMorphParse brokenLayoutSrc).updatedContent ≠ brokenLayoutSrc := by
  refine ⟨by decide, by decide, by decide⟩

/-- C2 amended: neither mutator ever propagates an exception — both are
total functions of the parse outcome — and whenever the parse/mutation
pipeline throws (the spec's "parser exception, unexpected node shape"), the
catch branch returns `modified = false`, `hasAuthProvider = false` and the
input text exactly.  Unchanged output is guaranteed only on that exception
path: the TypeScript parser is error-tolerant and on syntactically broken
JSX generally recovers a tree, whereupon the appended import may change
`updatedContent` even though both flags stay false, as the counterexample
and the repository's own invalid-JSX test show. -/
theorem c2_malformed_amended (parse : String → Option SourceFile) (s : String)
    (h : parse s = none) :
    modifyAppRouterLayout parse s = ⟨false, s, false⟩ ∧
    modifyPagesRouterApp parse s = ⟨false, s, false⟩ := by
  constructor
  · simp [modifyAppRouterLayout, h]
  · simp [modifyPagesRouterApp, h]

/-- Witness for the amended C2: a run in which the pipeline throws on the
broken layout input. -/
theorem c2_malformed_amended_witness :
    throwingPipeline brokenLayoutSrc = none ∧
    (modifyAppRouterLayout throwingPipeline brokenLayoutSrc =
        ⟨false, brokenLayoutSrc, false⟩ ∧
     modifyPagesRouterApp throwingPipeline brokenLayoutSrc =
        ⟨false, brokenLayoutSrc, false⟩) :=
  ⟨rfl, c2_malformed_amended throwingPipeline brokenLayoutSrc rfl⟩

/-- A layout file that has the auth import but no JSX at all. -/
def importOnlyLayout : SourceFile := ⟨[authImportDecl], []⟩

/-- C4 counterexample: a layout input that already contains the
provider import (from the fixed module path) but has no `body` element gets
`modified = false` AND `hasAuthProvider = false`, so clause (a) of the claim
fails for the import form of "already contained the provider". -/
theorem c4_mutation_invariant_counterexample :
    hasAuthImport importOnlyLayout.imports = true ∧
    (modifyAppRouterLayoutAst importOnlyLayout).modified = false ∧
    (modifyAppRouterLayoutAst importOnlyLayout).hasAuthProvider = false := by
  refine ⟨by decide, by decide, by decide⟩

theorem stmts_of_sf1 (sf : SourceFile) :
    (if hasAuthImport sf.imports then sf
     else { sf with imports := sf.imports ++ [authImportDecl] }).stmts = sf.stmts := by
  by_cases h : hasAuthImport sf.imports <;> simp [h]

/-- C4 amended: with "already contained the provider" read as a
provider-tagged JSX usage inside the relevant subtree — or the
provider import together with a recognized host structure — the invariant holds:
(a) `modified` and `hasAuthProvider` are never both false on such input, and
(b) `modified` is false whenever a provider usage was already present in the
relevant subtree before mutation.  (The import alone, with no host
structure, does not set `hasAuthProvider`: see the counterexample.) -/
theorem c4_mutation_invariant_amended :
    (∀ (sf : SourceFile) (t a : String) (cs : Forest),
      findLastBodyStmts sf.stmts = some (.jsxElement t a cs) → hasAPF cs = true →
      (modifyAppRouterLayoutAst sf).hasAuthProvider = true ∧
      (modifyAppRouterLayoutAst sf).modified = false) ∧
    (∀ (sf : SourceFile) (b : Node),
      hasAuthImport sf.imports = true → findLastBodyStmts sf.stmts = some b →
      (modifyAppRouterLayoutAst sf).hasAuthProvider = true) ∧
    (∀ (sf : SourceFile) (f : Stmt) (a : Node),
      findAppFn (expTexts sf.stmts) sf.stmts = some f →
      firstRetArg (getFnBody f) = some (some a) → hasAPN a = true →
      (modifyPagesRouterAppAst sf).hasAuthProvider = true ∧
      (modifyPagesRouterAppAst sf).modified = false) ∧
    (∀ (sf : SourceFile) (f : Stmt),
      hasAuthImport sf.imports = true → findAppFn (expTexts sf.stmts) sf.stmts = some f →
      (modifyPagesRouterAppAst sf).hasAuthProvider = true) := by
  refine ⟨?_, ?_, ?_, ?_⟩
  · intro sf t a cs hfind hap
    simp only [modifyAppRouterLayoutAst, stmts_of_sf1, hfind]
    simp only [processBody, if_pos hap]
    simp
  · intro sf b himp hfind
    simp only [modifyAppRouterLayoutAst, himp, if_true, hfind]
    simp
  · intro sf f a hfind hret hap
    simp only [modifyPagesRouterAppAst, stmts_of_sf1, hfind, hret]
    simp only [hap]
    simp
  · intro sf f himp hfind
    simp only [modifyPagesRouterAppAst, himp, if_true, hfind]
    cases hret : firstRetArg (getFnBody f) with
    | none => simp [hret]
    | some arg =>
      simp only [hret]
      cases arg with
      | none => simp
      | some a =>
        by_cases hap : hasAPN a
        · simp [hap]
        · simp only [Bool.false_eq_true, if_neg hap]
          split <;> first
            | rfl
            | (split <;> rfl)

/-- Witness for the amended C4: a layout whose body already holds the
provider element, and an app file with the import and an app function. -/
theorem c4_mutation_invariant_amended_witness :
    ((modifyAppRouterLayoutAst
        ⟨[authImportDecl],
         [.funcDecl (some "RootLayout") true "hdr"
            [.retStmt (some (.jsxElement "html" ""
              (.cons (.jsxElement "body" "" (.cons authWrapChildren .nil)) .nil)))]]⟩).hasAuthProvider
        = true ∧
      (modifyAppRouterLayoutAst
        ⟨[authImportDecl],
         [.funcDecl (some "RootLayout") true "hdr"
            [.retStmt (some (.jsxElement "html" ""
              (.cons (.jsxElement "body" "" (.cons authWrapChildren .nil)) .nil)))]]⟩).modified
        = false) ∧
    (modifyPagesRouterAppAst
        ⟨[authImportDecl], [.funcDecl (some "App") true "hdr" []]⟩).hasAuthProvider = true :=
  ⟨c4_mutation_invariant_amended.1
      ⟨[authImportDecl],
       [.funcDecl (some "RootLayout") true "hdr"
          [.retStmt (some (.jsxElement "html" ""
            (.cons (.jsxElement "body" "" (.cons authWrapChildren .nil)) .nil)))]]⟩
      "body" "" (.cons authWrapChildren .nil) (by decide) (by decide),
   c4_mutation_invariant_amended.2.2.2
      ⟨[authImportDecl], [.funcDecl (some "App") true "hdr" []]⟩
      (.funcDecl (some "App") true "hdr" []) (by decide) (by decide)⟩

/-! ## Idempotence of the two mutators

The lemma chain below establishes: the body element the file-wide search
returns is a `body`-tagged element with no `body` strictly inside it;
replacing the found element by itself is the identity; replacing it by
another inner-body-free `body` element makes that element the one a second
search finds; and every insertion leaves an `AuthProvider` opening element
inside the mutated subtree, which is exactly what the second run's detection
looks for. -/

theorem hasAuthImport_append (xs : List ImportDecl) :
    hasAuthImport (xs ++ [authImportDecl]) = true := by
  simp only [hasAuthImport, List.any_append, Bool.or_eq_true]
  exact Or.inr (by decide)

mutual
theorem findLastBodyN_shape (n : Node) :
    ∀ b, findLastBodyN n = some b →
      ∃ a cs, b = .jsxElement "body" a cs ∧ findLastBodyF cs = none := by
  cases n with
  | jsxElement t a cs =>
    intro b hb
    simp only [findLastBodyN] at hb
    cases hf : findLastBodyF cs with
    | some b' =>
      simp only [hf] at hb
      cases hb
      exact findLastBodyF_shape cs _ hf
    | none =>
      simp only [hf] at hb
      by_cases ht : t == "body"
      · rw [if_pos ht] at hb
        cases hb
        exact ⟨a, cs, by simp at ht; rw [ht], hf⟩
      · rw [if_neg ht] at hb
        exact absurd hb (by simp)
  | jsxExpression cs => intro b hb; exact findLastBodyF_shape cs b hb
  | exprNode cs => intro b hb; exact findLastBodyF_shape cs b hb
  | jsxSelfClosing t a => intro b hb; exact absurd hb (by simp [findLastBodyN])
  | ident s => intro b hb; exact absurd hb (by simp [findLastBodyN])
  | jsxText s => intro b hb; exact absurd hb (by simp [findLastBodyN])
theorem findLastBodyF_shape (f : Forest) :
    ∀ b, findLastBodyF f = some b →
      ∃ a cs, b = .jsxElement "body" a cs ∧ findLastBodyF cs = none := by
  cases f with
  | nil => intro b hb; exact absurd hb (by simp [findLastBodyF])
  | cons n ns =>
    intro b hb
    simp only [findLastBodyF] at hb
    cases hf : findLastBodyF ns with
    | some b' =>
      simp only [hf] at hb
      cases hb
      exact findLastBodyF_shape ns _ hf
    | none =>
      simp only [hf] at hb
      exact findLastBodyN_shape n b hb
end

mutual
theorem replLastBodyN_self (n : Node) :
    ∀ b, findLastBodyN n = some b → replLastBodyN b n = n := by
  cases n with
  | jsxElement t a cs =>
    intro b hb
    simp only [findLastBodyN] at hb
    cases hf : findLastBodyF cs with
    | some b' =>
      simp only [hf] at hb
      cases hb
      simp only [replLastBodyN, hf, Option.isSome_some, if_true]
      rw [replLastBodyF_self cs _ hf]
    | none =>
      simp only [hf] at hb
      by_cases ht : t == "body"
      · rw [if_pos ht] at hb
        cases hb
        simp [replLastBodyN, hf, ht]
      · rw [if_neg ht] at hb
        exact absurd hb (by simp)
  | jsxExpression cs =>
    intro b hb
    simp only [replLastBodyN]
    rw [replLastBodyF_self cs b hb]
  | exprNode cs =>
    intro b hb
    simp only [replLastBodyN]
    rw [replLastBodyF_self cs b hb]
  | jsxSelfClosing t a => intro b hb; exact absurd hb (by simp [findLastBodyN])
  | ident s => intro b hb; exact absurd hb (by simp [findLastBodyN])
  | jsxText s => intro b hb; exact absurd hb (by simp [findLastBodyN])
theorem replLastBodyF_self (f : Forest) :
    ∀ b, findLastBodyF f = some b → replLastBodyF b f = f := by
  cases f with
  | nil => intro b hb; exact absurd hb (by simp [findLastBodyF])
  | cons n ns =>
    intro b hb
    simp only [findLastBodyF] at hb
    cases hf : findLastBodyF ns with
    | some b' =>
      simp only [hf] at hb
      cases hb
      simp only [replLastBodyF, hf, Option.isSome_some, if_true]
      rw [replLastBodyF_self ns _ hf]
    | none =>
      simp only [hf] at hb
      simp only [replLastBodyF, hf, Option.isSome_none, Bool.false_eq_true, if_false]
      rw [replLastBodyN_self n b hb]
end

/-- A `body`-tagged element with no `body` element strictly inside — the
shape of everything `findLastBody` can return, preserved by the mutation. -/
def isBodyNoInner (c : Node) : Bool :=
  match c with
  | .jsxElement t _ cs => t == "body" && (findLastBodyF cs).isNone
  | _ => false

theorem findLastBodyN_of_isBodyNoInner {c : Node} (hc : isBodyNoInner c = true) :
    findLastBodyN c = some c := by
  cases c with
  | jsxElement t a cs =>
    simp only [isBodyNoInner, Bool.and_eq_true, Option.isNone_iff_eq_none] at hc
    simp [findLastBodyN, hc.2, hc.1]
  | jsxSelfClosing t a => exact absurd hc (by simp [isBodyNoInner])
  | jsxExpression cs => exact absurd hc (by simp [isBodyNoInner])
  | exprNode cs => exact absurd hc (by simp [isBodyNoInner])
  | ident s => exact absurd hc (by simp [isBodyNoInner])
  | jsxText s => exact absurd hc (by simp [isBodyNoInner])

mutual
theorem findRepl_N (n : Node) :
    ∀ b c, findLastBodyN n = some b → isBodyNoInner c = true →
      findLastBodyN (replLastBodyN c n) = some c := by
  cases n with
  | jsxElement t a cs =>
    intro b c hb hc
    simp only [findLastBodyN] at hb
    cases hf : findLastBodyF cs with
    | some b' =>
      simp only [replLastBodyN, hf, Option.isSome_some, if_true]
      simp only [findLastBodyN]
      rw [findRepl_F cs b' c hf hc]
    | none =>
      simp only [hf] at hb
      by_cases ht : t == "body"
      · simp only [replLastBodyN, hf, Option.isSome_none, Bool.false_eq_true, if_false,
          if_pos ht]
        exact findLastBodyN_of_isBodyNoInner hc
      · rw [if_neg ht] at hb
        exact absurd hb (by simp)
  | jsxExpression cs =>
    intro b c hb hc
    simp only [replLastBodyN, findLastBodyN]
    exact findRepl_F cs b c hb hc
  | exprNode cs =>
    intro b c hb hc
    simp only [replLastBodyN, findLastBodyN]
    exact findRepl_F cs b c hb hc
  | jsxSelfClosing t a => intro b c hb _; exact absurd hb (by simp [findLastBodyN])
  | ident s => intro b c hb _; exact absurd hb (by simp [findLastBodyN])
  | jsxText s => intro b c hb _; exact absurd hb (by simp [findLastBodyN])
theorem findRepl_F (f : Forest) :
    ∀ b c, findLastBodyF f = some b → isBodyNoInner c = true →
      findLastBodyF (replLastBodyF c f) = some c := by
  cases f with
  | nil => intro b c hb _; exact absurd hb (by simp [findLastBodyF])
  | cons n ns =>
    intro b c hb hc
    simp only [findLastBodyF] at hb
    cases hf : findLastBodyF ns with
    | some b' =>
      simp only [replLastBodyF, hf, Option.isSome_some, if_true]
      simp only [findLastBodyF]
      rw [findRepl_F ns b' c hf hc]
    | none =>
      simp only [hf] at hb
      simp only [replLastBodyF, hf, Option.isSome_none, Bool.false_eq_true, if_false]
      simp only [findLastBodyF, hf]
      rw [findRepl_N n b c hb hc]
end

theorem findLastBodyStmts_shape (stmts : List Stmt) (b : Node)
    (hb : findLastBodyStmts stmts = some b) :
    ∃ a cs, b = .jsxElement "body" a cs ∧ findLastBodyF cs = none := by
  induction stmts with
  | nil => exact absurd hb (by simp [findLastBodyStmts])
  | cons s ss ih =>
    simp only [findLastBodyStmts] at hb
    cases hf : findLastBodyStmts ss with
    | some b' =>
      simp only [hf] at hb
      cases hb
      exact ih hf
    | none =>
      simp only [hf] at hb
      cases s with
      | funcDecl nm ex hd body =>
        simp only [findLastBodyStmt] at hb
        clear ih hf
        induction body with
        | nil => exact absurd hb (by simp [findLastBodyFnB])
        | cons fs fss ihb =>
          simp only [findLastBodyFnB] at hb
          cases hg : findLastBodyFnB fss with
          | some b'' =>
            simp only [hg] at hb
            cases hb
            exact ihb hg
          | none =>
            simp only [hg] at hb
            cases fs with
            | retStmt arg =>
              cases arg with
              | some n =>
                simp only [findLastBodyFnS] at hb
                exact findLastBodyN_shape n b hb
              | none => exact absurd hb (by simp [findLastBodyFnS])
            | otherFn t => exact absurd hb (by simp [findLastBodyFnS])
      | exportAssign e => exact absurd hb (by simp [findLastBodyStmt])
      | otherStmt t => exact absurd hb (by simp [findLastBodyStmt])

theorem replLastBodyFnB_self (body : List FnBodyStmt) (b : Node)
    (hb : findLastBodyFnB body = some b) : replLastBodyFnB b body = body := by
  induction body with
  | nil => exact absurd hb (by simp [findLastBodyFnB])
  | cons fs fss ih =>
    simp only [findLastBodyFnB] at hb
    cases hg : findLastBodyFnB fss with
    | some b' =>
      simp only [hg] at hb
      cases hb
      simp only [replLastBodyFnB, hg, Option.isSome_some, if_true]
      rw [ih hg]
    | none =>
      simp only [hg] at hb
      simp only [replLastBodyFnB, hg, Option.isSome_none, Bool.false_eq_true, if_false]
      cases fs with
      | retStmt arg =>
        cases arg with
        | some n =>
          simp only [findLastBodyFnS] at hb
          simp only [replLastBodyFnS]
          rw [replLastBodyN_self n b hb]
        | none => exact absurd hb (by simp [findLastBodyFnS])
      | otherFn t => exact absurd hb (by simp [findLastBodyFnS])

theorem replLastBodyStmts_self (stmts : List Stmt) (b : Node)
    (hb : findLastBodyStmts stmts = some b) : replLastBodyStmts b stmts = stmts := by
  induction stmts with
  | nil => exact absurd hb (by simp [findLastBodyStmts])
  | cons s ss ih =>
    simp only [findLastBodyStmts] at hb
    cases hf : findLastBodyStmts ss with
    | some b' =>
      simp only [hf] at hb
      cases hb
      simp only [replLastBodyStmts, hf, Option.isSome_some, if_true]
      rw [ih hf]
    | none =>
      simp only [hf] at hb
      simp only [replLastBodyStmts, hf, Option.isSome_none, Bool.false_eq_true, if_false]
      cases s with
      | funcDecl nm ex hd body =>
        simp only [findLastBodyStmt] at hb
        simp only [replLastBodyStmt]
        rw [replLastBodyFnB_self body b hb]
      | exportAssign e => exact absurd hb (by simp [findLastBodyStmt])
      | otherStmt t => exact absurd hb (by simp [findLastBodyStmt])

theorem findRepl_FnB (body : List FnBodyStmt) (c : Node) (hc : isBodyNoInner c = true) :
    ∀ b, findLastBodyFnB body = some b →
      findLastBodyFnB (replLastBodyFnB c body) = some c := by
  induction body with
  | nil => intro b hb; exact absurd hb (by simp [findLastBodyFnB])
  | cons fs fss ih =>
    intro b hb
    simp only [findLastBodyFnB] at hb
    cases hg : findLastBodyFnB fss with
    | some b' =>
      simp only [replLastBodyFnB, hg, Option.isSome_some, if_true]
      simp only [findLastBodyFnB]
      rw [ih b' hg]
    | none =>
      simp only [hg] at hb
      simp only [replLastBodyFnB, hg, Option.isSome_none, Bool.false_eq_true, if_false]
      simp only [findLastBodyFnB, hg]
      cases fs with
      | retStmt arg =>
        cases arg with
        | some n =>
          simp only [findLastBodyFnS] at hb
          simp only [replLastBodyFnS, findLastBodyFnS]
          rw [findRepl_N n b c hb hc]
        | none => exact absurd hb (by simp [findLastBodyFnS])
      | otherFn t => exact absurd hb (by simp [findLastBodyFnS])

theorem findRepl_Stmts (stmts : List Stmt) (c : Node) (hc : isBodyNoInner c = true) :
    ∀ b, findLastBodyStmts stmts = some b →
      findLastBodyStmts (replLastBodyStmts c stmts) = some c := by
  induction stmts with
  | nil => intro b hb; exact absurd hb (by simp [findLastBodyStmts])
  | cons s ss ih =>
    intro b hb
    simp only [findLastBodyStmts] at hb
    cases hf : findLastBodyStmts ss with
    | some b' =>
      simp only [replLastBodyStmts, hf, Option.isSome_some, if_true]
      simp only [findLastBodyStmts]
      rw [ih b' hf]
    | none =>
      simp only [hf] at hb
      simp only [replLastBodyStmts, hf, Option.isSome_none, Bool.false_eq_true, if_false]
      simp only [findLastBodyStmts, hf]
      cases s with
      | funcDecl nm ex hd body =>
        simp only [findLastBodyStmt] at hb
        simp only [replLastBodyStmt, findLastBodyStmt]
        exact findRepl_FnB body c hc b hb
      | exportAssign e => exact absurd hb (by simp [findLastBodyStmt])
      | otherStmt t => exact absurd hb (by simp [findLastBodyStmt])

mutual
theorem replAtChildN_done (M : Int) (n : Node) :
    ∀ l, replAtChildN M n l true = (n, true) := by
  cases n with
  | jsxExpression cs =>
    intro l
    simp only [replAtChildN, Bool.not_true, Bool.false_and, Bool.false_eq_true, if_false]
    rw [replAtChildF_done M cs (l + 1)]
  | jsxElement t a cs =>
    intro l
    simp only [replAtChildN]
    rw [replAtChildF_done M cs (l + 1)]
  | exprNode cs =>
    intro l
    simp only [replAtChildN]
    rw [replAtChildF_done M cs (l + 1)]
  | jsxSelfClosing t a => intro l; rfl
  | ident s => intro l; rfl
  | jsxText s => intro l; rfl
theorem replAtChildF_done (M : Int) (f : Forest) :
    ∀ l, replAtChildF M f l true = (f, true) := by
  cases f with
  | nil => intro l; rfl
  | cons n ns =>
    intro l
    simp only [replAtChildF]
    rw [replAtChildN_done M n l, replAtChildF_done M ns l]
end

mutual
theorem replAtChildN_hits (M : Int) (n : Node) :
    ∀ l d, M ∈ candLevelsN n l → (replAtChildN M n l d).2 = true := by
  cases n with
  | jsxExpression cs =>
    intro l d hm
    cases d with
    | true => rw [replAtChildN_done M _ l]
    | false =>
      simp only [candLevelsN] at hm
      by_cases hc : (firstIdentF cs == some "children") && (l == M)
      · simp only [replAtChildN, Bool.not_false, Bool.true_and, hc, if_pos]
      · have hm2 : M ∈ candLevelsF cs (l + 1) := by
          rcases List.mem_append.mp hm with h1 | h1
          · exfalso
            by_cases hid : firstIdentF cs == some "children"
            · rw [if_pos hid] at h1
              rw [List.mem_singleton] at h1
              exact hc (by simp [hid, h1])
            · rw [if_neg hid] at h1
              exact absurd h1 (by simp)
          · exact h1
        simp only [replAtChildN, Bool.not_false, Bool.true_and, hc, if_neg,
          Bool.false_eq_true, if_false]
        exact replAtChildF_hits M cs (l + 1) false hm2
  | jsxElement t a cs =>
    intro l d hm
    simp only [candLevelsN] at hm
    simp only [replAtChildN]
    exact replAtChildF_hits M cs (l + 1) d hm
  | exprNode cs =>
    intro l d hm
    simp only [candLevelsN] at hm
    simp only [replAtChildN]
    exact replAtChildF_hits M cs (l + 1) d hm
  | jsxSelfClosing t a => intro l d hm; exact absurd hm (by simp [candLevelsN])
  | ident s => intro l d hm; exact absurd hm (by simp [candLevelsN])
  | jsxText s => intro l d hm; exact absurd hm (by simp [candLevelsN])
theorem replAtChildF_hits (M : Int) (f : Forest) :
    ∀ l d, M ∈ candLevelsF f l → (replAtChildF M f l d).2 = true := by
  cases f with
  | nil => intro l d hm; exact absurd hm (by simp [candLevelsF])
  | cons n ns =>
    intro l d hm
    simp only [candLevelsF] at hm
    simp only [replAtChildF]
    rcases List.mem_append.mp hm with h1 | h1
    · have hr1 : (replAtChildN M n l d).2 = true := replAtChildN_hits M n l d h1
      rw [hr1, replAtChildF_done M ns l]
    · exact replAtChildF_hits M ns l (replAtChildN M n l d).2 h1
end

mutual
theorem replAtChildN_AP (M : Int) (n : Node) :
    ∀ l, (replAtChildN M n l false).2 = true → hasAPN (replAtChildN M n l false).1 = true := by
  cases n with
  | jsxExpression cs =>
    intro l hs
    by_cases hc : (firstIdentF cs == some "children") && (l == M)
    · simp only [replAtChildN, Bool.not_false, Bool.true_and, hc, if_pos]
      decide
    · simp only [replAtChildN, Bool.not_false, Bool.true_and, hc, Bool.false_eq_true,
        if_false] at hs ⊢
      exact replAtChildF_AP M cs (l + 1) hs
  | jsxElement t a cs =>
    intro l hs
    simp only [replAtChildN] at hs ⊢
    simp only [hasAPN, Bool.or_eq_true]
    exact Or.inr (replAtChildF_AP M cs (l + 1) hs)
  | exprNode cs =>
    intro l hs
    simp only [replAtChildN] at hs ⊢
    simp only [hasAPN]
    exact replAtChildF_AP M cs (l + 1) hs
  | jsxSelfClosing t a => intro l hs; exact absurd hs (by simp [replAtChildN])
  | ident s => intro l hs; exact absurd hs (by simp [replAtChildN])
  | jsxText s => intro l hs; exact absurd hs (by simp [replAtChildN])
theorem replAtChildF_AP (M : Int) (f : Forest) :
    ∀ l, (replAtChildF M f l false).2 = true → hasAPF (replAtChildF M f l false).1 = true := by
  cases f with
  | nil => intro l hs; exact absurd hs (by simp [replAtChildF])
  | cons n ns =>
    intro l hs
    simp only [replAtChildF] at hs ⊢
    cases hr1 : (replAtChildN M n l false).2 with
    | true =>
      simp only [hasAPF, Bool.or_eq_true]
      exact Or.inl (replAtChildN_AP M n l hr1)
    | false =>
      rw [hr1] at hs
      simp only [hasAPF, Bool.or_eq_true]
      exact Or.inr (replAtChildF_AP M ns l hs)
end

theorem findLastBodyN_elem_none {t a : String} {cs : Forest}
    (h : findLastBodyN (.jsxElement t a cs) = none) :
    findLastBodyF cs = none ∧ (t == "body") = false := by
  simp only [findLastBodyN] at h
  cases hf : findLastBodyF cs with
  | some b => rw [hf] at h; exact absurd h (by simp)
  | none =>
    rw [hf] at h
    by_cases ht : t == "body"
    · rw [if_pos ht] at h; exact absurd h (by simp)
    · exact ⟨rfl, by simp at ht ⊢; exact ht⟩

theorem findLastBodyF_cons_none {n : Node} {ns : Forest}
    (h : findLastBodyF (.cons n ns) = none) :
    findLastBodyN n = none ∧ findLastBodyF ns = none := by
  simp only [findLastBodyF] at h
  cases hf : findLastBodyF ns with
  | some b => rw [hf] at h; exact absurd h (by simp)
  | none => rw [hf] at h; exact ⟨h, rfl⟩

mutual
theorem replAtChildN_noBody (M : Int) (n : Node) :
    ∀ l d, findLastBodyN n = none → findLastBodyN (replAtChildN M n l d).1 = none := by
  cases n with
  | jsxExpression cs =>
    intro l d hn
    simp only [findLastBodyN] at hn
    by_cases hc : !d && (firstIdentF cs == some "children") && (l == M)
    · simp only [replAtChildN, hc, if_pos]
      decide
    · simp only [replAtChildN, hc, Bool.false_eq_true, if_false]
      simp only [findLastBodyN]
      exact replAtChildF_noBody M cs (l + 1) d hn
  | jsxElement t a cs =>
    intro l d hn
    obtain ⟨hf, ht⟩ := findLastBodyN_elem_none hn
    simp only [replAtChildN]
    simp only [findLastBodyN]
    rw [replAtChildF_noBody M cs (l + 1) d hf, ht]
    simp
  | exprNode cs =>
    intro l d hn
    simp only [findLastBodyN] at hn
    simp only [replAtChildN, findLastBodyN]
    exact replAtChildF_noBody M cs (l + 1) d hn
  | jsxSelfClosing t a => intro l d _; rfl
  | ident s => intro l d _; rfl
  | jsxText s => intro l d _; rfl
theorem replAtChildF_noBody (M : Int) (f : Forest) :
    ∀ l d, findLastBodyF f = none → findLastBodyF (replAtChildF M f l d).1 = none := by
  cases f with
  | nil => intro l d _; rfl
  | cons n ns =>
    intro l d hn
    obtain ⟨h1, h2⟩ := findLastBodyF_cons_none hn
    simp only [replAtChildF, findLastBodyF]
    rw [replAtChildF_noBody M ns l (replAtChildN M n l d).2 h2]
    exact replAtChildN_noBody M n l d h1
end

theorem replSimpleChild_AP :
    ∀ (f f' : Forest), replSimpleChild f = some f' → hasAPF f' = true
  | .nil, f', h => absurd h (by simp [replSimpleChild])
  | .cons n ns, f', h => by
    cases n with
    | jsxExpression cs =>
      simp only [replSimpleChild] at h
      by_cases hinc : strIncludes (serializeNode (.jsxExpression cs)) "children"
      · rw [if_pos hinc] at h
        cases h
        simp only [hasAPF, Bool.or_eq_true]
        exact Or.inl (by decide)
      · rw [if_neg hinc] at h
        cases hrec : replSimpleChild ns with
        | some ns' =>
          rw [hrec] at h
          cases h
          simp only [hasAPF, Bool.or_eq_true]
          exact Or.inr (replSimpleChild_AP ns ns' hrec)
        | none => rw [hrec] at h; exact absurd h (by simp)
    | jsxElement t a cs =>
      simp only [replSimpleChild] at h
      cases hrec : replSimpleChild ns with
      | some ns' =>
        rw [hrec] at h
        cases h
        simp only [hasAPF, Bool.or_eq_true]
        exact Or.inr (replSimpleChild_AP ns ns' hrec)
      | none => rw [hrec] at h; exact absurd h (by simp)
    | jsxSelfClosing t a =>
      simp only [replSimpleChild] at h
      cases hrec : replSimpleChild ns with
      | some ns' =>
        rw [hrec] at h
        cases h
        simp only [hasAPF, Bool.or_eq_true]
        exact Or.inr (replSimpleChild_AP ns ns' hrec)
      | none => rw [hrec] at h; exact absurd h (by simp)
    | exprNode cs =>
      simp only [replSimpleChild] at h
      cases hrec : replSimpleChild ns with
      | some ns' =>
        rw [hrec] at h
        cases h
        simp only [hasAPF, Bool.or_eq_true]
        exact Or.inr (replSimpleChild_AP ns ns' hrec)
      | none => rw [hrec] at h; exact absurd h (by simp)
    | ident s =>
      simp only [replSimpleChild] at h
      cases hrec : replSimpleChild ns with
      | some ns' =>
        rw [hrec] at h
        cases h
        simp only [hasAPF, Bool.or_eq_true]
        exact Or.inr (replSimpleChild_AP ns ns' hrec)
      | none => rw [hrec] at h; exact absurd h (by simp)
    | jsxText s =>
      simp only [replSimpleChild] at h
      cases hrec : replSimpleChild ns with
      | some ns' =>
        rw [hrec] at h
        cases h
        simp only [hasAPF, Bool.or_eq_true]
        exact Or.inr (replSimpleChild_AP ns ns' hrec)
      | none => rw [hrec] at h; exact absurd h (by simp)

theorem replSimpleChild_noBody :
    ∀ (f f' : Forest), findLastBodyF f = none → replSimpleChild f = some f' →
      findLastBodyF f' = none
  | .nil, f', _, h => absurd h (by simp [replSimpleChild])
  | .cons n ns, f', hn, h => by
    obtain ⟨h1, h2⟩ := findLastBodyF_cons_none hn
    cases n with
    | jsxExpression cs =>
      simp only [replSimpleChild] at h
      by_cases hinc : strIncludes (serializeNode (.jsxExpression cs)) "children"
      · rw [if_pos hinc] at h
        cases h
        simp only [findLastBodyF, h2]
        decide
      · rw [if_neg hinc] at h
        cases hrec : replSimpleChild ns with
        | some ns' =>
          rw [hrec] at h
          cases h
          simp only [findLastBodyF]
          rw [replSimpleChild_noBody ns ns' h2 hrec]
          exact h1
        | none => rw [hrec] at h; exact absurd h (by simp)
    | jsxElement t a cs =>
      simp only [replSimpleChild] at h
      cases hrec : replSimpleChild ns with
      | some ns' =>
        rw [hrec] at h
        cases h
        simp only [findLastBodyF]
        rw [replSimpleChild_noBody ns ns' h2 hrec]
        exact h1
      | none => rw [hrec] at h; exact absurd h (by simp)
    | jsxSelfClosing t a =>
      simp only [replSimpleChild] at h
      cases hrec : replSimpleChild ns with
      | some ns' =>
        rw [hrec] at h
        cases h
        simp only [findLastBodyF]
        rw [replSimpleChild_noBody ns ns' h2 hrec]
        exact h1
      | none => rw [hrec] at h; exact absurd h (by simp)
    | exprNode cs =>
      simp only [replSimpleChild] at h
      cases hrec : replSimpleChild ns with
      | some ns' =>
        rw [hrec] at h
        cases h
        simp only [findLastBodyF]
        rw [replSimpleChild_noBody ns ns' h2 hrec]
        exact h1
      | none => rw [hrec] at h; exact absurd h (by simp)
    | ident s =>
      simp only [replSimpleChild] at h
      cases hrec : replSimpleChild ns with
      | some ns' =>
        rw [hrec] at h
        cases h
        simp only [findLastBodyF]
        rw [replSimpleChild_noBody ns ns' h2 hrec]
        exact h1
      | none => rw [hrec] at h; exact absurd h (by simp)
    | jsxText s =>
      simp only [replSimpleChild] at h
      cases hrec : replSimpleChild ns with
      | some ns' =>
        rw [hrec] at h
        cases h
        simp only [findLastBodyF]
        rw [replSimpleChild_noBody ns ns' h2 hrec]
        exact h1
      | none => rw [hrec] at h; exact absurd h (by simp)

theorem foldl_max_mem (xs : List Int) :
    ∀ x : Int, xs.foldl max x = x ∨ xs.foldl max x ∈ xs := by
  induction xs with
  | nil => intro x; left; rfl
  | cons y ys ih =>
    intro x
    rcases ih (max x y) with h | h
    · rcases max_choice x y with hm | hm
      · left; simp only [List.foldl_cons]; rw [h, hm]
      · right; simp only [List.foldl_cons]; rw [h, hm]; exact List.mem_cons_self y ys
    · right
      simp only [List.foldl_cons]
      exact List.mem_cons_of_mem y h

theorem maxLvl_mem {ls : List Int} {M : Int} (h : maxLvl ls = some M) : M ∈ ls := by
  cases ls with
  | nil => exact absurd h (by simp [maxLvl])
  | cons x xs =>
    simp only [maxLvl, Option.some.injEq] at h
    subst h
    rcases foldl_max_mem xs x with h | h
    · rw [h]; exact List.mem_cons_self x xs
    · exact List.mem_cons_of_mem x h

theorem processBody_AP {t a : String} {cs : Forest} (h : hasAPF cs = true) :
    processBody (.jsxElement t a cs) = (.jsxElement t a cs, false, true) := by
  simp only [processBody, h, if_true]

theorem processBody_cases (t a : String) (cs : Forest) (hap : hasAPF cs = false) :
    processBody (.jsxElement t a cs) = (.jsxElement t a cs, false, false) ∨
    (∃ cs', processBody (.jsxElement t a cs) = (.jsxElement t a cs', true, false) ∧
      hasAPF cs' = true ∧ (findLastBodyF cs = none → findLastBodyF cs' = none)) := by
  simp only [processBody, hap, Bool.false_eq_true, if_false]
  split
  · split
    · left; rfl
    · rename_i M hm
      right
      refine ⟨(replAtChildF M cs 0 false).1, rfl, ?_, ?_⟩
      · exact replAtChildF_AP M cs 0 (replAtChildF_hits M cs 0 false (maxLvl_mem hm))
      · intro hnb
        exact replAtChildF_noBody M cs 0 false hnb
  · split
    · rename_i cs' hs
      right
      exact ⟨cs', rfl, replSimpleChild_AP cs cs' hs,
        fun hnb => replSimpleChild_noBody cs cs' hnb hs⟩
    · left; rfl

/-- The import-ensuring step shared by both mutators. -/
def addAuthImportIfMissing (sf : SourceFile) : SourceFile :=
  if hasAuthImport sf.imports then sf
  else { sf with imports := sf.imports ++ [authImportDecl] }

theorem addAuthImportIfMissing_stmts (sf : SourceFile) :
    (addAuthImportIfMissing sf).stmts = sf.stmts := by
  by_cases h : hasAuthImport sf.imports <;> simp [addAuthImportIfMissing, h]

theorem addAuthImportIfMissing_has (sf : SourceFile) :
    hasAuthImport (addAuthImportIfMissing sf).imports = true := by
  by_cases h : hasAuthImport sf.imports
  · simp [addAuthImportIfMissing, h]
  · simp [addAuthImportIfMissing, h, hasAuthImport_append]

theorem addAuthImportIfMissing_of_has {sf : SourceFile}
    (h : hasAuthImport sf.imports = true) : addAuthImportIfMissing sf = sf := by
  simp [addAuthImportIfMissing, h]

theorem sourceFile_eta (x : SourceFile) {s : List Stmt} (h : x.stmts = s) :
    { x with stmts := s } = x := by
  cases x with
  | mk imps sts =>
    cases h
    rfl

theorem modifyAppRouterLayoutAst_eq (sf : SourceFile) :
    modifyAppRouterLayoutAst sf =
      match findLastBodyStmts sf.stmts with
      | none => ⟨false, addAuthImportIfMissing sf, false⟩
      | some b =>
        ⟨(processBody b).2.1,
         { addAuthImportIfMissing sf with stmts := replLastBodyStmts (processBody b).1 sf.stmts },
         (processBody b).2.2 || hasAuthImport sf.imports⟩ := by
  by_cases h : hasAuthImport sf.imports <;>
    cases hf : findLastBodyStmts sf.stmts <;>
    simp [modifyAppRouterLayoutAst, addAuthImportIfMissing, h, hf]

theorem stmts_update (x : SourceFile) (s : List Stmt) :
    ({ x with stmts := s } : SourceFile).stmts = s := rfl

theorem imports_update (x : SourceFile) (s : List Stmt) :
    ({ x with stmts := s } : SourceFile).imports = x.imports := rfl

theorem modifyAppRouterLayoutAst_idem (sf : SourceFile) :
    (modifyAppRouterLayoutAst (modifyAppRouterLayoutAst sf).updated).modified = false ∧
    (modifyAppRouterLayoutAst (modifyAppRouterLayoutAst sf).updated).updated =
      (modifyAppRouterLayoutAst sf).updated := by
  rw [modifyAppRouterLayoutAst_eq sf]
  cases hf : findLastBodyStmts sf.stmts with
  | none =>
    simp only []
    rw [modifyAppRouterLayoutAst_eq (addAuthImportIfMissing sf)]
    have h2 : findLastBodyStmts (addAuthImportIfMissing sf).stmts = none := by
      rw [addAuthImportIfMissing_stmts]; exact hf
    rw [h2]
    rw [addAuthImportIfMissing_of_has (addAuthImportIfMissing_has sf)]
    exact ⟨rfl, rfl⟩
  | some b =>
    obtain ⟨a, cs, rfl, hnb⟩ := findLastBodyStmts_shape sf.stmts b hf
    simp only []
    by_cases hap : hasAPF cs = true
    · rw [processBody_AP hap]
      simp only []
      rw [replLastBodyStmts_self sf.stmts _ hf,
        sourceFile_eta (addAuthImportIfMissing sf) (addAuthImportIfMissing_stmts sf)]
      rw [modifyAppRouterLayoutAst_eq (addAuthImportIfMissing sf)]
      have h2 : findLastBodyStmts (addAuthImportIfMissing sf).stmts =
          some (.jsxElement "body" a cs) := by
        rw [addAuthImportIfMissing_stmts]; exact hf
      rw [h2]
      simp only []
      rw [processBody_AP hap]
      rw [addAuthImportIfMissing_stmts, replLastBodyStmts_self sf.stmts _ hf,
        addAuthImportIfMissing_of_has (addAuthImportIfMissing_has sf)]
      exact ⟨rfl, sourceFile_eta _ (addAuthImportIfMissing_stmts sf)⟩
    · replace hap : hasAPF cs = false := by simpa using hap
      rcases processBody_cases "body" a cs hap with hpc | ⟨cs', hpc, hap', hnb'⟩
      · rw [hpc]
        simp only []
        rw [replLastBodyStmts_self sf.stmts _ hf,
          sourceFile_eta (addAuthImportIfMissing sf) (addAuthImportIfMissing_stmts sf)]
        rw [modifyAppRouterLayoutAst_eq (addAuthImportIfMissing sf)]
        have h2 : findLastBodyStmts (addAuthImportIfMissing sf).stmts =
            some (.jsxElement "body" a cs) := by
          rw [addAuthImportIfMissing_stmts]; exact hf
        rw [h2]
        simp only []
        rw [hpc]
        rw [addAuthImportIfMissing_stmts, replLastBodyStmts_self sf.stmts _ hf,
          addAuthImportIfMissing_of_has (addAuthImportIfMissing_has sf)]
        exact ⟨rfl, sourceFile_eta _ (addAuthImportIfMissing_stmts sf)⟩
      · rw [hpc]
        simp only []
        have hbni : isBodyNoInner (.jsxElement "body" a cs') = true := by
          simp [isBodyNoInner, hnb' hnb]
        have h2 : findLastBodyStmts (replLastBodyStmts (.jsxElement "body" a cs') sf.stmts) =
            some (.jsxElement "body" a cs') := findRepl_Stmts sf.stmts _ hbni _ hf
        rw [modifyAppRouterLayoutAst_eq]
        rw [stmts_update, h2]
        simp only []
        rw [processBody_AP hap']
        have hu_has : hasAuthImport
            ({ addAuthImportIfMissing sf with
                stmts := replLastBodyStmts (.jsxElement "body" a cs') sf.stmts }
              : SourceFile).imports = true := by
          rw [imports_update]; exact addAuthImportIfMissing_has sf
        rw [addAuthImportIfMissing_of_has hu_has]
        rw [stmts_update, replLastBodyStmts_self _ _ h2]
        exact ⟨rfl, sourceFile_eta _ (stmts_update _ _)⟩

mutual
theorem replAtCompN_done (M : Int) (n : Node) :
    ∀ l, replAtCompN M n l true = (n, true) := by
  cases n with
  | jsxElement t a cs =>
    intro l
    simp only [replAtCompN, Bool.not_true, Bool.false_and, Bool.false_eq_true, if_false]
    rw [replAtCompF_done M cs (l + 1)]
  | jsxSelfClosing t a =>
    intro l
    simp only [replAtCompN, Bool.not_true, Bool.false_and, Bool.false_eq_true, if_false]
  | jsxExpression cs =>
    intro l
    simp only [replAtCompN]
    rw [replAtCompF_done M cs (l + 1)]
  | exprNode cs =>
    intro l
    simp only [replAtCompN]
    rw [replAtCompF_done M cs (l + 1)]
  | ident s => intro l; rfl
  | jsxText s => intro l; rfl
theorem replAtCompF_done (M : Int) (f : Forest) :
    ∀ l, replAtCompF M f l true = (f, true) := by
  cases f with
  | nil => intro l; rfl
  | cons n ns =>
    intro l
    simp only [replAtCompF]
    rw [replAtCompN_done M n l, replAtCompF_done M ns l]
end

mutual
theorem replAtCompN_hits (M : Int) (n : Node) :
    ∀ l d, M ∈ compLevelsN n l → (replAtCompN M n l d).2 = true := by
  cases n with
  | jsxElement t a cs =>
    intro l d hm
    cases d with
    | true => rw [replAtCompN_done M _ l]
    | false =>
      simp only [compLevelsN] at hm
      by_cases hc : (t == "Component") && (l + 1 == M)
      · simp only [replAtCompN, Bool.not_false, Bool.true_and, hc, if_pos]
      · have hm2 : M ∈ compLevelsF cs (l + 1) := by
          rcases List.mem_append.mp hm with h1 | h1
          · exfalso
            by_cases hid : t == "Component"
            · rw [if_pos hid] at h1
              rw [List.mem_singleton] at h1
              exact hc (by simp [hid, h1])
            · rw [if_neg hid] at h1
              exact absurd h1 (by simp)
          · exact h1
        simp only [replAtCompN, Bool.not_false, Bool.true_and, hc, Bool.false_eq_true, if_false]
        exact replAtCompF_hits M cs (l + 1) false hm2
  | jsxSelfClosing t a =>
    intro l d hm
    simp only [compLevelsN] at hm
    cases d with
    | true => rw [replAtCompN_done M _ l]
    | false =>
      by_cases hid : t == "Component"
      · rw [if_pos hid] at hm
        rw [List.mem_singleton] at hm
        have hc : ((t == "Component") && (l == M)) = true := by simp [hid, hm]
        simp only [replAtCompN, Bool.not_false, Bool.true_and, hc, if_pos]
      · rw [if_neg hid] at hm
        exact absurd hm (by simp)
  | jsxExpression cs =>
    intro l d hm
    simp only [compLevelsN] at hm
    simp only [replAtCompN]
    exact replAtCompF_hits M cs (l + 1) d hm
  | exprNode cs =>
    intro l d hm
    simp only [compLevelsN] at hm
    simp only [replAtCompN]
    exact replAtCompF_hits M cs (l + 1) d hm
  | ident s => intro l d hm; exact absurd hm (by simp [compLevelsN])
  | jsxText s => intro l d hm; exact absurd hm (by simp [compLevelsN])
theorem replAtCompF_hits (M : Int) (f : Forest) :
    ∀ l d, M ∈ compLevelsF f l → (replAtCompF M f l d).2 = true := by
  cases f with
  | nil => intro l d hm; exact absurd hm (by simp [compLevelsF])
  | cons n ns =>
    intro l d hm
    simp only [compLevelsF] at hm
    simp only [replAtCompF]
    rcases List.mem_append.mp hm with h1 | h1
    · have hr1 : (replAtCompN M n l d).2 = true := replAtCompN_hits M n l d h1
      rw [hr1, replAtCompF_done M ns l]
    · exact replAtCompF_hits M ns l (replAtCompN M n l d).2 h1
end

mutual
theorem replAtCompN_AP (M : Int) (n : Node) :
    ∀ l, (replAtCompN M n l false).2 = true → hasAPN (replAtCompN M n l false).1 = true := by
  cases n with
  | jsxElement t a cs =>
    intro l hs
    by_cases hc : (t == "Component") && (l + 1 == M)
    · simp only [replAtCompN, Bool.not_false, Bool.true_and, hc, if_pos]
      simp only [wrapWithAuthProvider, hasAPN, Bool.or_eq_true]
      exact Or.inl (by decide)
    · simp only [replAtCompN, Bool.not_false, Bool.true_and, hc, Bool.false_eq_true,
        if_false] at hs ⊢
      simp only [hasAPN, Bool.or_eq_true]
      exact Or.inr (replAtCompF_AP M cs (l + 1) hs)
  | jsxSelfClosing t a =>
    intro l hs
    by_cases hc : (t == "Component") && (l == M)
    · simp only [replAtCompN, Bool.not_false, Bool.true_and, hc, if_pos]
      simp only [wrapWithAuthProvider, hasAPN, Bool.or_eq_true]
      exact Or.inl (by decide)
    · simp only [replAtCompN, Bool.not_false, Bool.true_and, hc, Bool.false_eq_true,
        if_false] at hs
  | jsxExpression cs =>
    intro l hs
    simp only [replAtCompN] at hs ⊢
    simp only [hasAPN]
    exact replAtCompF_AP M cs (l + 1) hs
  | exprNode cs =>
    intro l hs
    simp only [replAtCompN] at hs ⊢
    simp only [hasAPN]
    exact replAtCompF_AP M cs (l + 1) hs
  | ident s => intro l hs; exact absurd hs (by simp [replAtCompN])
  | jsxText s => intro l hs; exact absurd hs (by simp [replAtCompN])
theorem replAtCompF_AP (M : Int) (f : Forest) :
    ∀ l, (replAtCompF M f l false).2 = true → hasAPF (replAtCompF M f l false).1 = true := by
  cases f with
  | nil => intro l hs; exact absurd hs (by simp [replAtCompF])
  | cons n ns =>
    intro l hs
    simp only [replAtCompF] at hs ⊢
    cases hr1 : (replAtCompN M n l false).2 with
    | true =>
      simp only [hasAPF, Bool.or_eq_true]
      exact Or.inl (replAtCompN_AP M n l hr1)
    | false =>
      rw [hr1] at hs
      simp only [hasAPF, Bool.or_eq_true]
      exact Or.inr (replAtCompF_AP M ns l hs)
end

mutual
theorem replLastCompN_AP (n : Node) :
    ∀ n', replLastCompN n = some n' → hasAPN n' = true := by
  cases n with
  | jsxElement t a cs =>
    intro n' h
    simp only [replLastCompN] at h
    cases hf : replLastCompF cs with
    | some cs' =>
      simp only [hf, Option.some.injEq] at h
      subst h
      simp only [hasAPN, Bool.or_eq_true]
      exact Or.inr (replLastCompF_AP cs _ hf)
    | none =>
      simp only [hf] at h
      by_cases ht : t == "Component"
      · rw [if_pos ht] at h
        simp only [Option.some.injEq] at h
        subst h
        simp only [wrapWithAuthProvider, hasAPN, Bool.or_eq_true]
        exact Or.inl (by decide)
      · rw [if_neg ht] at h
        exact absurd h (by simp)
  | jsxSelfClosing t a =>
    intro n' h
    simp only [replLastCompN] at h
    by_cases ht : t == "Component"
    · rw [if_pos ht] at h
      simp only [Option.some.injEq] at h
      subst h
      simp only [wrapWithAuthProvider, hasAPN, Bool.or_eq_true]
      exact Or.inl (by decide)
    · rw [if_neg ht] at h
      exact absurd h (by simp)
  | jsxExpression cs =>
    intro n' h
    simp only [replLastCompN] at h
    cases hf : replLastCompF cs with
    | some cs' =>
      simp only [hf, Option.some.injEq] at h
      subst h
      simp only [hasAPN]
      exact replLastCompF_AP cs _ hf
    | none =>
      simp only [hf] at h
      exact absurd h (by simp)
  | exprNode cs =>
    intro n' h
    simp only [replLastCompN] at h
    cases hf : replLastCompF cs with
    | some cs' =>
      simp only [hf, Option.some.injEq] at h
      subst h
      simp only [hasAPN]
      exact replLastCompF_AP cs _ hf
    | none =>
      simp only [hf] at h
      exact absurd h (by simp)
  | ident s => intro n' h; exact absurd h (by simp [replLastCompN])
  | jsxText s => intro n' h; exact absurd h (by simp [replLastCompN])
theorem replLastCompF_AP (f : Forest) :
    ∀ f', replLastCompF f = some f' → hasAPF f' = true := by
  cases f with
  | nil => intro f' h; exact absurd h (by simp [replLastCompF])
  | cons n ns =>
    intro f' h
    simp only [replLastCompF] at h
    cases hf : replLastCompF ns with
    | some ns' =>
      simp only [hf, Option.some.injEq] at h
      subst h
      simp only [hasAPF, Bool.or_eq_true]
      exact Or.inr (replLastCompF_AP ns _ hf)
    | none =>
      simp only [hf] at h
      cases hn : replLastCompN n with
      | some n' =>
        simp only [hn, Option.some.injEq] at h
        subst h
        simp only [hasAPF, Bool.or_eq_true]
        exact Or.inl (replLastCompN_AP n _ hn)
      | none =>
        simp only [hn] at h
        exact absurd h (by simp)
end

theorem isAppFn_replRetInStmt (exps : List String) (a' : Option Node) (s : Stmt) :
    isAppFn exps (replRetInStmt a' s) = isAppFn exps s := by
  cases s <;> rfl

theorem expTexts_replaceAppRet (exps : List String) (a' : Option Node) (stmts : List Stmt) :
    expTexts (replaceAppRet exps a' stmts) = expTexts stmts := by
  induction stmts with
  | nil => rfl
  | cons s ss ih =>
    by_cases hs : isAppFn exps s
    · simp only [replaceAppRet, hs, if_true]
      cases s <;> rfl
    · simp only [replaceAppRet, hs, Bool.false_eq_true, if_false]
      simp only [expTexts] at ih ⊢
      cases s <;> simp [List.filterMap_cons, ih]

theorem findAppFn_shape (exps : List String) (stmts : List Stmt) (f : Stmt)
    (h : findAppFn exps stmts = some f) : ∃ n e hd b, f = .funcDecl n e hd b := by
  induction stmts with
  | nil => exact absurd h (by simp [findAppFn])
  | cons s ss ih =>
    simp only [findAppFn] at h
    by_cases hs : isAppFn exps s
    · rw [if_pos hs] at h
      simp only [Option.some.injEq] at h
      subst h
      cases s with
      | funcDecl n e hd b => exact ⟨n, e, hd, b, rfl⟩
      | exportAssign e => exact absurd hs (by simp [isAppFn])
      | otherStmt t => exact absurd hs (by simp [isAppFn])
    · rw [if_neg hs] at h
      exact ih h

theorem findAppFn_replaceAppRet (exps : List String) (a' : Option Node) (stmts : List Stmt) :
    ∀ f, findAppFn exps stmts = some f →
      findAppFn exps (replaceAppRet exps a' stmts) = some (replRetInStmt a' f) := by
  induction stmts with
  | nil => intro f h; exact absurd h (by simp [findAppFn])
  | cons s ss ih =>
    intro f h
    simp only [findAppFn] at h
    by_cases hs : isAppFn exps s
    · rw [if_pos hs] at h
      simp only [Option.some.injEq] at h
      subst h
      simp only [replaceAppRet, hs, if_true]
      simp only [findAppFn, isAppFn_replRetInStmt, hs, if_true]
    · rw [if_neg hs] at h
      simp only [replaceAppRet, hs, Bool.false_eq_true, if_false]
      simp only [findAppFn, hs, Bool.false_eq_true, if_false]
      exact ih f h

theorem firstRetArg_replFirstRet (a' : Option Node) (b : List FnBodyStmt) :
    ∀ arg, firstRetArg b = some arg → firstRetArg (replFirstRet a' b) = some a' := by
  induction b with
  | nil => intro arg h; exact absurd h (by simp [firstRetArg])
  | cons s ss ih =>
    intro arg h
    cases s with
    | retStmt a0 => rfl
    | otherFn t =>
      simp only [firstRetArg] at h
      simp only [replFirstRet, firstRetArg]
      exact ih arg h

theorem getFnBody_replRetInStmt (a' : Option Node) (s : Stmt) :
    getFnBody (replRetInStmt a' s) = replFirstRet a' (getFnBody s) := by
  cases s <;> rfl

theorem modifyPagesRouterAppAst_eq (sf : SourceFile) :
    modifyPagesRouterAppAst sf =
      (match findAppFn (expTexts sf.stmts) sf.stmts with
      | none => ⟨false, addAuthImportIfMissing sf, false⟩
      | some f =>
        match firstRetArg (getFnBody f) with
        | none => ⟨false, addAuthImportIfMissing sf, hasAuthImport sf.imports⟩
        | some arg =>
          if (match arg with | some a => hasAPN a | none => false) then
            ⟨false, addAuthImportIfMissing sf, true⟩
          else if strIncludes (retText arg) "Provider" ||
              ((retText arg).data.contains '<' && (retText arg).data.contains '>' &&
                decide (countTags (retText arg) > 2)) then
            match arg with
            | none => ⟨false, addAuthImportIfMissing sf, hasAuthImport sf.imports⟩
            | some a =>
              match maxLvl (compLevelsN a 0) with
              | none => ⟨false, addAuthImportIfMissing sf, hasAuthImport sf.imports⟩
              | some M =>
                ⟨true,
                 { addAuthImportIfMissing sf with
                    stmts := replaceAppRet (expTexts sf.stmts)
                      (some (replAtCompN M a 0 false).1) sf.stmts },
                 hasAuthImport sf.imports⟩
          else
            match arg with
            | none => ⟨false, addAuthImportIfMissing sf, hasAuthImport sf.imports⟩
            | some a =>
              match replLastCompN a with
              | some a' =>
                ⟨true,
                 { addAuthImportIfMissing sf with
                    stmts := replaceAppRet (expTexts sf.stmts) (some a') sf.stmts },
                 hasAuthImport sf.imports⟩
              | none => ⟨false, addAuthImportIfMissing sf, hasAuthImport sf.imports⟩) := by
  by_cases h : hasAuthImport sf.imports <;>
    simp only [modifyPagesRouterAppAst, addAuthImportIfMissing, h, if_true, Bool.false_eq_true,
      if_false]

theorem modifyPagesRouterAppAst_idem (sf : SourceFile) :
    (modifyPagesRouterAppAst (modifyPagesRouterAppAst sf).updated).modified = false ∧
    (modifyPagesRouterAppAst (modifyPagesRouterAppAst sf).updated).updated =
      (modifyPagesRouterAppAst sf).updated := by
  rw [modifyPagesRouterAppAst_eq sf]
  cases hfind : findAppFn (expTexts sf.stmts) sf.stmts with
  | none =>
    simp only []
    rw [modifyPagesRouterAppAst_eq (addAuthImportIfMissing sf)]
    rw [addAuthImportIfMissing_stmts, hfind]
    simp only []
    rw [addAuthImportIfMissing_of_has (addAuthImportIfMissing_has sf)]
    exact ⟨trivial, rfl⟩
  | some f =>
    simp only []
    cases harg : firstRetArg (getFnBody f) with
    | none =>
      simp only []
      rw [modifyPagesRouterAppAst_eq (addAuthImportIfMissing sf)]
      rw [addAuthImportIfMissing_stmts, hfind]
      simp only []
      rw [harg]
      simp only []
      rw [addAuthImportIfMissing_of_has (addAuthImportIfMissing_has sf)]
      exact ⟨trivial, rfl⟩
    | some arg =>
      simp only []
      cases arg with
      | none =>
        simp only [Bool.false_eq_true, if_false]
        have hcx : (strIncludes (retText none) "Provider" ||
            ((retText none).data.contains '<' && (retText none).data.contains '>' &&
              decide (countTags (retText none) > 2))) = false := by decide
        rw [hcx]
        simp only [Bool.false_eq_true, if_false]
        rw [modifyPagesRouterAppAst_eq (addAuthImportIfMissing sf)]
        rw [addAuthImportIfMissing_stmts, hfind]
        simp only []
        rw [harg]
        simp only [Bool.false_eq_true, if_false]
        rw [hcx]
        simp only [Bool.false_eq_true, if_false]
        rw [addAuthImportIfMissing_of_has (addAuthImportIfMissing_has sf)]
        exact ⟨trivial, rfl⟩
      | some a =>
        simp only []
        by_cases hap : hasAPN a = true
        · simp only [hap, if_true]
          rw [modifyPagesRouterAppAst_eq (addAuthImportIfMissing sf)]
          rw [addAuthImportIfMissing_stmts, hfind]
          simp only []
          rw [harg]
          simp only [hap, if_true]
          rw [addAuthImportIfMissing_of_has (addAuthImportIfMissing_has sf)]
          exact ⟨trivial, rfl⟩
        · have hap' : hasAPN a = false := by simpa using hap
          simp only [hap', Bool.false_eq_true, if_false]
          by_cases hcx : (strIncludes (retText (some a)) "Provider" ||
              ((retText (some a)).data.contains '<' && (retText (some a)).data.contains '>' &&
                decide (countTags (retText (some a)) > 2))) = true
          · simp only [hcx, if_true]
            cases hM : maxLvl (compLevelsN a 0) with
            | none =>
              simp only []
              rw [modifyPagesRouterAppAst_eq (addAuthImportIfMissing sf)]
              rw [addAuthImportIfMissing_stmts, hfind]
              simp only []
              rw [harg]
              simp only [hap', Bool.false_eq_true, if_false, hcx, if_true]
              rw [hM]
              simp only []
              rw [addAuthImportIfMissing_of_has (addAuthImportIfMissing_has sf)]
              exact ⟨trivial, rfl⟩
            | some M =>
              simp only []
              have ha2 : hasAPN (replAtCompN M a 0 false).1 = true :=
                replAtCompN_AP M a 0 (replAtCompN_hits M a 0 false (maxLvl_mem hM))
              rw [modifyPagesRouterAppAst_eq]
              rw [stmts_update, expTexts_replaceAppRet]
              rw [findAppFn_replaceAppRet _ _ _ f hfind]
              simp only []
              rw [getFnBody_replRetInStmt, firstRetArg_replFirstRet _ _ _ harg]
              simp only [ha2, if_true]
              refine ⟨trivial, ?_⟩
              exact addAuthImportIfMissing_of_has
                (by rw [imports_update]; exact addAuthImportIfMissing_has sf)
          · have hcx' : (strIncludes (retText (some a)) "Provider" ||
                ((retText (some a)).data.contains '<' && (retText (some a)).data.contains '>' &&
                  decide (countTags (retText (some a)) > 2))) = false := by simpa using hcx
            simp only [hcx', Bool.false_eq_true, if_false]
            cases hL : replLastCompN a with
            | none =>
              simp only []
              rw [modifyPagesRouterAppAst_eq (addAuthImportIfMissing sf)]
              rw [addAuthImportIfMissing_stmts, hfind]
              simp only []
              rw [harg]
              simp only [hap', Bool.false_eq_true, if_false, hcx', if_false]
              rw [hL]
              simp only []
              rw [addAuthImportIfMissing_of_has (addAuthImportIfMissing_has sf)]
              exact ⟨trivial, rfl⟩
            | some a' =>
              simp only []
              have ha2 : hasAPN a' = true := replLastCompN_AP a a' hL
              rw [modifyPagesRouterAppAst_eq]
              rw [stmts_update, expTexts_replaceAppRet]
              rw [findAppFn_replaceAppRet _ _ _ f hfind]
              simp only []
              rw [getFnBody_replRetInStmt, firstRetArg_replFirstRet _ _ _ harg]
              simp only [ha2, if_true]
              refine ⟨trivial, ?_⟩
              exact addAuthImportIfMissing_of_has
                (by rw [imports_update]; exact addAuthImportIfMissing_has sf)

/-- C1: Idempotence of the Wrapper Mutator: for every input string on which
`modifyAppRouterLayout` (respectively `modifyPagesRouterApp`) returns a
result, running the same function a second time on the first run's
`updatedContent` yields `modified = false`, and the second run's
`updatedContent` equals its input (the first run's output).  The external
parser is a parameter; the hypotheses say only that when it parsed the
original input, it faithfully reparses the printer's output on the mutated
tree (the print/parse round trip of ts-morph), and they are vacuous when the
parse of the input throws. -/
theorem c1_wrapper_mutator_idempotent
    (parse : String → Option SourceFile) (s : String)
    (hA : ∀ sf, parse s = some sf →
      parse (modifyAppRouterLayout parse s).updatedContent =
        some (modifyAppRouterLayoutAst sf).updated)
    (hP : ∀ sf, parse s = some sf →
      parse (modifyPagesRouterApp parse s).updatedContent =
        some (modifyPagesRouterAppAst sf).updated) :
    ((modifyAppRouterLayout parse (modifyAppRouterLayout parse s).updatedContent).modified
        = false ∧
     (modifyAppRouterLayout parse (modifyAppRouterLayout parse s).updatedContent).updatedContent
        = (modifyAppRouterLayout parse s).updatedContent) ∧
    ((modifyPagesRouterApp parse (modifyPagesRouterApp parse s).updatedContent).modified
        = false ∧
     (modifyPagesRouterApp parse (modifyPagesRouterApp parse s).updatedContent).updatedContent
        = (modifyPagesRouterApp parse s).updatedContent) := by
  constructor
  · cases hp : parse s with
    | none =>
      simp only [modifyAppRouterLayout, hp]
      exact ⟨trivial, trivial⟩
    | some sf =>
      have h2 := hA sf hp
      simp only [modifyAppRouterLayout, hp] at h2 ⊢
      rw [h2]
      simp only []
      obtain ⟨hm, hu⟩ := modifyAppRouterLayoutAst_idem sf
      exact ⟨hm, by rw [hu]⟩
  · cases hp : parse s with
    | none =>
      simp only [modifyPagesRouterApp, hp]
      exact ⟨trivial, trivial⟩
    | some sf =>
      have h2 := hP sf hp
      simp only [modifyPagesRouterApp, hp] at h2 ⊢
      rw [h2]
      simp only []
      obtain ⟨hm, hu⟩ := modifyPagesRouterAppAst_idem sf
      exact ⟨hm, by rw [hu]⟩

/-- A source file that both mutators leave exactly as it is: the auth import
is present, the exported `App` function's return is already wrapped in the
provider, and no `body` element occurs. -/
def c1File : SourceFile :=
  ⟨[authImportDecl],
   [.funcDecl (some "App") true "export default function App()"
      [.retStmt (some (wrapWithAuthProvider (.jsxSelfClosing "Component" "")))]]⟩

def c1Src : String := serializeFile c1File

/-- A parser table consistent with `serializeFile` on the one file the
witness exercises. -/
def c1Parse (s : String) : Option SourceFile :=
  if s == c1Src then some c1File else none

/-- Witness for C1: a concrete parser and input discharging both reparse
hypotheses, with the conclusion instantiated there. -/
theorem c1_wrapper_mutator_idempotent_witness :
    (∀ sf, c1Parse c1Src = some sf →
      c1Parse (modifyAppRouterLayout c1Parse c1Src).updatedContent =
        some (modifyAppRouterLayoutAst sf).updated) ∧
    (∀ sf, c1Parse c1Src = some sf →
      c1Parse (modifyPagesRouterApp c1Parse c1Src).updatedContent =
        some (modifyPagesRouterAppAst sf).updated) ∧
    (((modifyAppRouterLayout c1Parse
          (modifyAppRouterLayout c1Parse c1Src).updatedContent).modified = false ∧
      (modifyAppRouterLayout c1Parse
          (modifyAppRouterLayout c1Parse c1Src).updatedContent).updatedContent =
        (modifyAppRouterLayout c1Parse c1Src).updatedContent) ∧
     ((modifyPagesRouterApp c1Parse
          (modifyPagesRouterApp c1Parse c1Src).updatedContent).modified = false ∧
      (modifyPagesRouterApp c1Parse
          (modifyPagesRouterApp c1Parse c1Src).updatedContent).updatedContent =
        (modifyPagesRouterApp c1Parse c1Src).updatedContent)) := by
  have hA : ∀ sf, c1Parse c1Src = some sf →
      c1Parse (modifyAppRouterLayout c1Parse c1Src).updatedContent =
        some (modifyAppRouterLayoutAst sf).updated := by
    intro sf h
    have hsf : c1File = sf := by simpa [c1Parse] using h
    subst hsf
    set_option maxRecDepth 10000 in decide
  have hP : ∀ sf, c1Parse c1Src = some sf →
      c1Parse (modifyPagesRouterApp c1Parse c1Src).updatedContent =
        some (modifyPagesRouterAppAst sf).updated := by
    intro sf h
    have hsf : c1File = sf := by simpa [c1Parse] using h
    subst hsf
    set_option maxRecDepth 10000 in decide
  exact ⟨hA, hP, c1_wrapper_mutator_idempotent c1Parse c1Src hA hP⟩

end PropelAuthCLI
